import Mathlib

/-
Verification of the lazy-loading layer-set subsystem of ufoLib2
(src/ufoLib2/objects/layerSet.py) and the Guideline geometric invariant
(src/ufoLib2/objects/guideline.py).

Modelling conventions:
* Python object identity is modelled by integer ids: every Layer object
  lives in an explicit heap `List (Nat × LayerData)`; the LayerSet's
  `defaultLayer` attribute (a reference to a Layer object) is modelled as
  the id `defaultId` pointing into that heap.  In-place mutation of a
  layer object is an update of the heap at its id.
* The `_NOT_LOADED` sentinel stored in the `_layers` ordered dict is
  modelled by the entry value `Option Nat`: `none` is the sentinel
  (Pending), `some i` is a reference to the loaded Layer object with id i.
* Python `OrderedDict` / `dict` is an association list with unique keys;
  assignment to an existing key replaces the value in place (keeping the
  key position), assignment to a new key appends at the end.
* Exceptions are modelled with `Except`; a raised exception carries the
  state at the point of the raise, so partial mutation before a failure
  is observable: operations return `Except (Err × LayerSet) LayerSet`.
* I/O against the backing store (UFOReader / UFOWriter) is recorded in an
  event log carried by the state, so that claims about how many load
  requests, deletions and writes an operation issues are statable.
* The Layer and Glyph objects themselves are external to the excerpt.
  Modelled from the spec: a Layer is "a named, glyph-keyed container"
  exposing membership test, pop/insert-by-name, and a write operation
  taking an output handle; a Glyph has a mutable name field.
-/

/-- A glyph: only its (mutable) name and an identity tag are relevant here.
Modelled from the spec: glyphs are opaque values keyed by name inside a
layer; `renameGlyph` updates the glyph object's own stored name field. -/
structure Glyph where
  gname : String
  ident : Nat
deriving Repr, DecidableEq

/-- The mutable payload of a Layer object: its name and its ordered
glyph-name → glyph mapping.  Modelled from the spec: a Layer is a named,
glyph-keyed container. -/
structure LayerData where
  name : String
  glyphs : List (String × Glyph)
deriving Repr, DecidableEq

/-- A Layer object as handed to the LayerSet constructor: an identity (id)
plus its data.  Two distinct Python objects have distinct ids. -/
structure Layer where
  id : Nat
  data : LayerData
deriving Repr, DecidableEq

/-- The heap of Layer objects, keyed by object id. -/
abbrev Heap := List (Nat × LayerData)

/-- ufoLib2.constants.DEFAULT_LAYER_NAME (module not in the excerpt;
value as documented: the default layer is named public.default). -/
def DEFAULT_LAYER_NAME : String := "public.default"

/-- Python exceptions raised by the modelled code. -/
inductive Err where
  | keyError (msg : String)
  | typeError (msg : String)
  | valueError (msg : String)
  | assertionError
deriving Repr, DecidableEq

/-- One I/O request issued to the backing store. -/
inductive Event where
  | loadReq (n : String)
  | deleteReq (n : String)
  | writeGS (n : String) (isDefault : Bool)
  | manifest (order : List String)
deriving Repr, DecidableEq

/-- The backing store in its reader role (fontTools UFOReader): an ordered
layer-name listing, a default-layer name, and per-layer glyph content. -/
structure UFOReader where
  id : Nat
  layerNames : List String
  defaultLayerName : String
  contents : List (String × List (String × Glyph))
deriving Repr, DecidableEq

/-- The backing store in its writer role (fontTools UFOWriter): the set of
layer names currently persisted (used by the write-time diff). -/
structure UFOWriter where
  id : Nat
  layerNames : List String
deriving Repr, DecidableEq

/-! ### Ordered-dictionary primitives (Python dict semantics) -/

/-- Lookup in an ordered mapping (first — and only — match). -/
def odLookup {α : Type} : List (String × α) → String → Option α
  | [], _ => none
  | p :: ps, k => if p.1 = k then some p.2 else odLookup ps k

/-- `d[k] = v`: replace in place if the key exists (keeping its position),
else append at the end — Python dict/OrderedDict assignment. -/
def insertOD {α : Type} : List (String × α) → String → α → List (String × α)
  | [], k, v => [(k, v)]
  | p :: ps, k, v => if p.1 = k then (k, v) :: ps else p :: insertOD ps k v

/-- `del d[k]`: remove the key (callers check presence where Python would
raise). -/
def odErase {α : Type} : List (String × α) → String → List (String × α)
  | [], _ => []
  | p :: ps, k => if p.1 = k then ps else p :: odErase ps k

/-- `k in d`. -/
def containsKeyB {α : Type} (xs : List (String × α)) (k : String) : Bool :=
  (odLookup xs k).isSome

/-! ### The LayerSet state -/

/-- The LayerSet object state.

`layers` models `self._layers` (ordered dict name → entry, entry `none`
being the `_NOT_LOADED` sentinel and `some i` a loaded Layer object id);
`defaultId` models the `self.defaultLayer` object reference; `heap` holds
every Layer object ever created; `nextId` supplies fresh object ids;
`reader` models `self._reader`; `log` records backing-store I/O. -/
structure LayerSet where
  layers : List (String × Option Nat)
  defaultId : Nat
  heap : Heap
  nextId : Nat
  reader : Option UFOReader
  log : List Event
deriving Repr, DecidableEq

/-- Heap lookup by object id. -/
def heapLookup : Heap → Nat → Option LayerData
  | [], _ => none
  | q :: qs, i => if q.1 = i then some q.2 else heapLookup qs i

/-- In-place mutation of the Layer object with id `i`. -/
def heapSet : Heap → Nat → LayerData → Heap
  | [], _, _ => []
  | q :: qs, i, d => if q.1 = i then (i, d) :: qs else q :: heapSet qs i d

/-- The current layer order, `list(self._layers)`. -/
def layerKeys (s : LayerSet) : List String := s.layers.map Prod.fst

/-- `self.defaultLayer.name` (the empty-string fallback is unreachable for
well-formed states, where the default id is always in the heap). -/
def defaultName (s : LayerSet) : String :=
  match heapLookup s.heap s.defaultId with
  | some d => d.name
  | none => ""

/-- Glyph content the store holds for layer `n`. -/
def readerGlyphs (r : UFOReader) (n : String) : Option (List (String × Glyph)) :=
  odLookup r.contents n

/-- Whether the store can serve a load request for layer `n`. -/
def readerHas (r : UFOReader) (n : String) : Bool :=
  (readerGlyphs r n).isSome

/-! ### Guideline (src/ufoLib2/objects/guideline.py) -/

/-- `Guideline.__attrs_post_init__`: the geometric-invariant validation
run once at construction.  Python `Number` is modelled by `ℚ`; the four
`raise ValueError` sites keep their distinct messages (Python quoting
omitted). -/
def guidelineCheck (x y angle : Option ℚ) : Except Err Unit :=
  if x.isNone ∧ y.isNone then
    .error (.valueError "x or y must be present")
  else if (x.isNone ∨ y.isNone) ∧ angle.isSome then
    .error (.valueError "if x or y are None, angle must not be present")
  else if x.isSome ∧ y.isSome ∧ angle.isNone then
    .error (.valueError "if x and y are defined, angle must be defined")
  else
    match angle with
    | some a => if 0 ≤ a ∧ a ≤ 360 then .ok () else .error (.valueError "angle must be between 0 and 360")
    | none => .ok ()

/-- The geometric invariant as the specification words it: at least one of
x/y present; if only one of x/y is present then angle is absent; if both
are present then angle is present; angle, when present, lies in [0, 360]. -/
def guidelineOk (x y angle : Option ℚ) : Prop :=
  (x.isSome ∨ y.isSome)
  ∧ ((x.isNone ∨ y.isNone) → angle.isNone)
  ∧ ((x.isSome ∧ y.isSome) → angle.isSome)
  ∧ (∀ a : ℚ, angle = some a → 0 ≤ a ∧ a ≤ 360)

/-! ### LayerSet construction (converter and `__attrs_post_init__`) -/

/-- `_convert_layers`: build the name-keyed ordered dict from an iterable
of Layer objects, rejecting duplicate names (the isinstance TypeError is
unrepresentable in the typed model). -/
def convertLayersAux : List Layer → List (String × Option Nat) → Except Err (List (String × Option Nat))
  | [], acc => .ok acc
  | l :: ls, acc =>
    if containsKeyB acc l.data.name then
      .error (.keyError ("duplicate layer name: " ++ l.data.name))
    else
      convertLayersAux ls (acc ++ [(l.data.name, some l.id)])

/-- `LayerSet.__attrs_post_init__`, taking the already-converted ordered
mapping plus the heap of supplied Layer objects.

The one-layer/no-default branch executes `next(self._layers.values())`;
a dict values view is not an iterator, so in Python this raises
TypeError — modelled faithfully.  The branch resolving the default by
DEFAULT_LAYER_NAME can in the source store the not-loaded sentinel as
`defaultLayer` (breaking every later `defaultLayer.name` access); that
corner is unreachable from the construction paths modelled here and is
represented as a TypeError. -/
def mkLayerSet (layers : List (String × Option Nat)) (defaultArg : Option Nat)
    (heap : Heap) (nextId : Nat) (rdr : Option UFOReader) (log : List Event) :
    Except Err LayerSet :=
  if layers = [] then
    match defaultArg with
    | some _ => .error (.typeError "defaultLayer argument is invalid with empty LayerSet")
    | none =>
      .ok ⟨[(DEFAULT_LAYER_NAME, some nextId)], nextId,
           heap ++ [(nextId, ⟨DEFAULT_LAYER_NAME, []⟩)], nextId + 1, rdr, log⟩
  else
    match defaultArg with
    | some d =>
      if layers.any (fun p => p.2 = some d) then
        .ok ⟨layers, d, heap, nextId, rdr, log⟩
      else
        .error (.valueError "defaultLayer is not among the specified layers")
    | none =>
      if layers.length = 1 then
        .error (.typeError "odict_values object is not an iterator")
      else
        match odLookup layers DEFAULT_LAYER_NAME with
        | some (some i) => .ok ⟨layers, i, heap, nextId, rdr, log⟩
        | some none => .error (.typeError "default layer entry is not loaded")
        | none => .error (.valueError "default layer not specified")

/-- Direct construction `LayerSet(layers, defaultLayer=...)` from a list of
Layer objects; the optional default argument is the id of the Layer object
passed as `defaultLayer` (identity is id equality). -/
def layerSetNew (objs : List Layer) (defaultArg : Option Nat) : Except Err LayerSet :=
  match convertLayersAux objs [] with
  | .error e => .error e
  | .ok layers =>
    mkLayerSet layers defaultArg (objs.map fun l => (l.id, l.data))
      (objs.foldl (fun m l => max m (l.id + 1)) 0) none []

/-! ### Materialization (`loadLayer` / `__getitem__`) -/

/-- `LayerSet.loadLayer` restricted to a pending entry: assert the reader
exists, request the layer's glyph set from the store (one load request),
build the Layer object (`Layer.read`) and replace the sentinel in place.
The raised exceptions carry the (unchanged) state. -/
def loadLayerFn (s : LayerSet) (k : String) : Except (Err × LayerSet) (Nat × LayerSet) :=
  match s.reader with
  | none => .error (.assertionError, s)
  | some r =>
    if containsKeyB s.layers k then
      match readerGlyphs r k with
      | none => .error (.keyError k, s)
      | some gl =>
        .ok (s.nextId,
          { layers := insertOD s.layers k (some s.nextId)
            defaultId := s.defaultId
            heap := s.heap ++ [(s.nextId, ⟨k, gl⟩)]
            nextId := s.nextId + 1
            reader := s.reader
            log := s.log ++ [.loadReq k] })
    else .error (.keyError k, s)

/-- `LayerSet.__getitem__`: look the entry up, materializing the
`_NOT_LOADED` sentinel through `loadLayer` on first access; a missing key
raises KeyError. -/
def getItem (s : LayerSet) (k : String) : Except (Err × LayerSet) (Nat × LayerSet) :=
  match odLookup s.layers k with
  | none => .error (.keyError k, s)
  | some (some i) => .ok (i, s)
  | some none => loadLayerFn s k

/-! ### Simple mutations -/

/-- `LayerSet.__delitem__`: refuse to delete the entry named like the
current default layer, else delete (KeyError if absent). -/
def delitem (s : LayerSet) (name : String) : Except (Err × LayerSet) LayerSet :=
  if name = defaultName s then
    .error (.keyError ("cannot delete default layer " ++ name), s)
  else if containsKeyB s.layers name then
    .ok { s with layers := odErase s.layers name }
  else
    .error (.keyError name, s)

/-- `LayerSet.newLayer`: create an empty Layer object and append it under
`name`; KeyError if the name exists. -/
def newLayer (s : LayerSet) (name : String) : Except (Err × LayerSet) LayerSet :=
  if containsKeyB s.layers name then
    .error (.keyError ("layer " ++ name ++ " already exists"), s)
  else
    .ok { layers := s.layers ++ [(name, some s.nextId)]
          defaultId := s.defaultId
          heap := s.heap ++ [(s.nextId, ⟨name, []⟩)]
          nextId := s.nextId + 1
          reader := s.reader
          log := s.log }

/-- Check `set(order) == set(self._layers)` (Python set equality). -/
def sameNameSet (order : List String) (keys : List String) : Bool :=
  order.all (fun n => n ∈ keys) && keys.all (fun n => n ∈ order)

/-- Rebuild the ordered dict by assigning `layers[name] = old[name]` for
each name in the supplied order (duplicates collapse to their first
position, per dict assignment semantics). -/
def reorderOD (old : List (String × Option Nat)) : List String → List (String × Option Nat) → List (String × Option Nat)
  | [], acc => acc
  | n :: ns, acc =>
    match odLookup old n with
    | some v => reorderOD old ns (insertOD acc n v)
    | none => reorderOD old ns acc

/-- `LayerSet.layerOrder` setter: assert the supplied names are set-equal
to the existing keys, then rebuild the mapping in the supplied order. -/
def setLayerOrder (s : LayerSet) (order : List String) : Except (Err × LayerSet) LayerSet :=
  if sameNameSet order (layerKeys s) then
    .ok { s with layers := reorderOD s.layers order [] }
  else
    .error (.assertionError, s)

/-- `LayerSet.renameLayer`: no-op when the names are equal; conflict check
when not overwriting; materialize the old entry via `__getitem__`; move
the entry and update the Layer object's own stored name in place. -/
def renameLayer (s : LayerSet) (name newName : String) (overwrite : Bool) :
    Except (Err × LayerSet) LayerSet :=
  if name = newName then .ok s
  else if ¬overwrite ∧ containsKeyB s.layers newName then
    .error (.keyError ("target name " ++ newName ++ " already exists"), s)
  else
    match getItem s name with
    | .error e => .error e
    | .ok (i, s1) =>
      let layers1 := odErase s1.layers name
      let layers2 := insertOD layers1 newName (some i)
      let heap2 :=
        match heapLookup s1.heap i with
        | some d => heapSet s1.heap i { d with name := newName }
        | none => s1.heap
      .ok { s1 with layers := layers2, heap := heap2 }

/-! ### renameGlyph (two loops over `self`, materializing as they go) -/

/-- Glyph mapping of the Layer object with id `i` (empty for a dangling
id, which well-formedness excludes). -/
def heapGlyphs (s : LayerSet) (i : Nat) : List (String × Glyph) :=
  match heapLookup s.heap i with
  | some d => d.glyphs
  | none => []

/-- `g in layer` for the Layer object with id `i`. -/
def glyphMemB (s : LayerSet) (i : Nat) (g : String) : Bool :=
  containsKeyB (heapGlyphs s i) g

/-- Replace the glyph mapping of the Layer object with id `i` in place. -/
def setGlyphs (s : LayerSet) (i : Nat) (gl : List (String × Glyph)) : LayerSet :=
  match heapLookup s.heap i with
  | some d => { s with heap := heapSet s.heap i { d with glyphs := gl } }
  | none => s

/-- `any(name in layer for layer in self)`: walk the layers in order,
materializing each pending entry as the iterator yields it, stopping at
the first layer containing `g`. -/
def anyHasGlyph : List String → LayerSet → String → Except (Err × LayerSet) (Bool × LayerSet)
  | [], s, _ => .ok (false, s)
  | k :: ks, s, g =>
    match getItem s k with
    | .error e => .error e
    | .ok (i, s1) =>
      if glyphMemB s1 i g then .ok (true, s1)
      else anyHasGlyph ks s1 g

/-- The destination-preparation loop of `renameGlyph`: for every layer (in
order, materializing), if `newName` is present, delete it when
`overwrite` is set, else raise KeyError. -/
def conflictPass : List String → LayerSet → String → Bool → Except (Err × LayerSet) LayerSet
  | [], s, _, _ => .ok s
  | k :: ks, s, newName, overwrite =>
    match getItem s k with
    | .error e => .error e
    | .ok (i, s1) =>
      if glyphMemB s1 i newName then
        if overwrite then
          conflictPass ks (setGlyphs s1 i (odErase (heapGlyphs s1 i) newName)) newName overwrite
        else
          .error (.keyError ("target name " ++ newName ++ " already exists"), s1)
      else conflictPass ks s1 newName overwrite

/-- The move loop of `renameGlyph`: for every layer containing `name`,
pop the glyph, reinsert it under `newName`, and update the glyph object's
own stored name. -/
def movePass : List String → LayerSet → String → String → Except (Err × LayerSet) LayerSet
  | [], s, _, _ => .ok s
  | k :: ks, s, name, newName =>
    match getItem s k with
    | .error e => .error e
    | .ok (i, s1) =>
      if glyphMemB s1 i name then
        match odLookup (heapGlyphs s1 i) name with
        | some g =>
          movePass ks
            (setGlyphs s1 i
              (insertOD (odErase (heapGlyphs s1 i) name) newName { g with gname := newName }))
            name newName
        | none => movePass ks s1 name newName
      else movePass ks s1 name newName

/-- `LayerSet.renameGlyph`: no-op when the names are equal; raise KeyError
if `name` is in no layer; prepare the destination (conflict check /
overwrite deletion); then move the glyph in every layer that has it. -/
def renameGlyph (s : LayerSet) (name newName : String) (overwrite : Bool) :
    Except (Err × LayerSet) LayerSet :=
  if name = newName then .ok s
  else
    match anyHasGlyph (layerKeys s) s name with
    | .error e => .error e
    | .ok (false, s1) =>
      .error (.keyError ("name " ++ name ++ " is not in layer set"), s1)
    | .ok (true, s1) =>
      match conflictPass (layerKeys s1) s1 newName overwrite with
      | .error e => .error e
      | .ok s2 => movePass (layerKeys s2) s2 name newName

/-! ### read -/

/-- The loop body of `LayerSet.read`: build the ordered mapping, loading
the store-declared default layer (and, in non-lazy mode, every layer)
eagerly and recording everything else as the `_NOT_LOADED` sentinel.
Returns (mapping, defaultLayer reference, heap, nextId, log). -/
def readLoop (r : UFOReader) (lazy : Bool) :
    List String → List (String × Option Nat) → Option Nat → Heap → Nat → List Event →
    Except Err (List (String × Option Nat) × Option Nat × Heap × Nat × List Event)
  | [], layers, dflt, heap, nextId, log => .ok (layers, dflt, heap, nextId, log)
  | n :: ns, layers, dflt, heap, nextId, log =>
    if n = r.defaultLayerName ∨ ¬lazy then
      match readerGlyphs r n with
      | none => .error (.keyError n)
      | some gl =>
        readLoop r lazy ns (insertOD layers n (some nextId))
          (if n = r.defaultLayerName then some nextId else dflt)
          (heap ++ [(nextId, ⟨n, gl⟩)]) (nextId + 1) (log ++ [.loadReq n])
    else
      readLoop r lazy ns (insertOD layers n none) dflt heap nextId log

/-- `LayerSet.read(reader, lazy)`: run the loop, assert a default layer
was found, construct the LayerSet (the converter passes the ordered dict
through), and remember the reader only in lazy mode. -/
def layerSetRead (r : UFOReader) (lazy : Bool) : Except Err LayerSet :=
  match readLoop r lazy r.layerNames [] none [] 0 [] with
  | .error e => .error e
  | .ok (layers, dflt, heap, nextId, log) =>
    match dflt with
    | none => .error .assertionError
    | some d => mkLayerSet layers (some d) heap nextId (if lazy then some r else none) log

/-! ### write -/

/-- Names deduplicated to their first occurrence — `set(...)` membership
with one visit per name. -/
def dedupFirst : List String → List String → List String
  | [], _ => []
  | n :: ns, seen => if n ∈ seen then dedupFirst ns seen else n :: dedupFirst ns (n :: seen)

/-- The in-place deletion diff of `LayerSet.write`: delete from the store
every persisted layer name absent from the in-memory mapping. -/
def deleteDiff (w : UFOWriter) (s : LayerSet) : List Event :=
  ((dedupFirst w.layerNames []).filter (fun n => ¬containsKeyB s.layers n)).map Event.deleteReq

/-- The per-layer loop of `LayerSet.write`: walk the entries in order; the
default flag comes from comparing the entry value (possibly the sentinel)
with the `defaultLayer` reference; a pending entry is loaded first when
`saveAs` and skipped entirely otherwise; a written layer costs one
`getGlyphSet` write handle. -/
def writeLoop (saveAs : Bool) : List String → LayerSet → Except (Err × LayerSet) LayerSet
  | [], s => .ok s
  | k :: ks, s =>
    match odLookup s.layers k with
    | none => writeLoop saveAs ks s
    | some ent =>
      let isDef : Bool := match ent with | some i => i = s.defaultId | none => false
      match ent with
      | none =>
        if saveAs then
          match loadLayerFn s k with
          | .error e => .error e
          | .ok (_, s1) => writeLoop saveAs ks { s1 with log := s1.log ++ [.writeGS k isDef] }
        else writeLoop saveAs ks s
      | some _ => writeLoop saveAs ks { s with log := s.log ++ [.writeGS k isDef] }

/-- `LayerSet.write(writer, saveAs)`: default `saveAs` to "writer is not
the reader this set was loaded from"; run the deletion diff when writing
in place; write the layers; commit the current order as the manifest. -/
def layerSetWrite (s : LayerSet) (w : UFOWriter) (saveAsArg : Option Bool) :
    Except (Err × LayerSet) LayerSet :=
  let saveAs := match saveAsArg with
    | some b => b
    | none => match s.reader with
      | none => true
      | some r => decide (r.id ≠ w.id)
  let s0 := if saveAs then s else { s with log := s.log ++ deleteDiff w s }
  match writeLoop saveAs (layerKeys s0) s0 with
  | .error e => .error e
  | .ok s1 => .ok { s1 with log := s1.log ++ [.manifest (layerKeys s1)] }

/-! ### Observables and well-formedness -/

/-- The logical glyph-name list of the layer entry at key `k`: for a
loaded entry, the keys of the Layer object's glyph mapping; for a pending
entry, the keys of the content the backing store holds for it; `none`
when the key is absent (or a pending entry has no backing content). -/
def glyphKeys (s : LayerSet) (k : String) : Option (List String) :=
  match odLookup s.layers k with
  | none => none
  | some (some i) => (heapLookup s.heap i).map (fun d => d.glyphs.map Prod.fst)
  | some none =>
    match s.reader with
    | some r => (readerGlyphs r k).map (fun gl => gl.map Prod.fst)
    | none => none

/-- Whether glyph `g` logically belongs to the layer entry at key `k`. -/
def hasGlyphB (s : LayerSet) (k g : String) : Bool :=
  match glyphKeys s k with
  | some gs => decide (g ∈ gs)
  | none => false

/-- The name of the Layer object with id `i`, if any. -/
def heapName (s : LayerSet) (i : Nat) : Option String :=
  (heapLookup s.heap i).map LayerData.name

/-- Whether the state can serve a load request for layer `n`. -/
def readerCovers (s : LayerSet) (n : String) : Bool :=
  match s.reader with
  | some r => readerHas r n
  | none => false

/-- Well-formedness of a LayerSet state, satisfied by every state the
public construction paths produce: unique layer names; fresh-id counter
above every allocated id (including the default layer reference); unique
heap ids; every loaded entry points at a heap object carrying the entry's
key as its name; every pending entry is backed by the remembered reader. -/
def WF (s : LayerSet) : Prop :=
  (layerKeys s).Nodup
  ∧ s.defaultId < s.nextId
  ∧ (∀ q ∈ s.heap, q.1 < s.nextId)
  ∧ (s.heap.map Prod.fst).Nodup
  ∧ (∀ p ∈ s.layers, ∀ i, p.2 = some i → i < s.nextId ∧ heapName s i = some p.1)
  ∧ (∀ p ∈ s.layers, p.2 = none → readerCovers s p.1 = true)

instance (s : LayerSet) : Decidable (WF s) := by
  unfold WF
  infer_instance

/-- Equality of everything the specification treats as the observable
content of a LayerSet: layer order, default reference, remembered
reader, default layer name, and each entry's logical glyph keys. -/
def obsEq (s t : LayerSet) : Prop :=
  layerKeys s = layerKeys t
  ∧ s.defaultId = t.defaultId
  ∧ s.reader = t.reader
  ∧ defaultName s = defaultName t
  ∧ (∀ k, glyphKeys s k = glyphKeys t k)

/-- The default layer is present among the entries, by object identity.
("Exactly one" default layer is structural here: the state carries a
single `defaultLayer` reference.) -/
def defaultPresent (s : LayerSet) : Prop :=
  some s.defaultId ∈ s.layers.map Prod.snd

/-- The state an operation left behind, whether it returned or raised. -/
def endState : Except (Err × LayerSet) LayerSet → LayerSet
  | .ok t => t
  | .error (_, t) => t

/-! ### Association-list lemmas -/

theorem odLookup_isSome_iff {α : Type} (xs : List (String × α)) (k : String) :
    (odLookup xs k).isSome = true ↔ k ∈ xs.map Prod.fst := by
  induction xs with
  | nil => simp [odLookup]
  | cons p ps ih =>
    by_cases h : p.1 = k
    · simp [odLookup, h]
    · simp [odLookup, h, ih, Ne.symm h]

theorem containsKeyB_iff {α : Type} (xs : List (String × α)) (k : String) :
    containsKeyB xs k = true ↔ k ∈ xs.map Prod.fst := by
  rw [containsKeyB, odLookup_isSome_iff]

theorem odLookup_mem {α : Type} {xs : List (String × α)} {k : String} {v : α}
    (h : odLookup xs k = some v) : (k, v) ∈ xs := by
  induction xs with
  | nil => simp [odLookup] at h
  | cons p ps ih =>
    by_cases hp : p.1 = k
    · rw [odLookup, if_pos hp] at h
      cases h
      cases p
      simp_all
    · rw [odLookup, if_neg hp] at h
      exact List.mem_cons_of_mem _ (ih h)

theorem mem_odLookup {α : Type} {xs : List (String × α)} {k : String} {v : α}
    (hnd : (xs.map Prod.fst).Nodup) (h : (k, v) ∈ xs) : odLookup xs k = some v := by
  induction xs with
  | nil => simp at h
  | cons p ps ih =>
    simp only [List.map_cons, List.nodup_cons] at hnd
    rcases List.mem_cons.mp h with h | h
    · subst h
      simp [odLookup]
    · have hk : p.1 ≠ k := by
        intro he
        exact hnd.1 (he ▸ (List.mem_map.mpr ⟨(k, v), h, rfl⟩))
      rw [odLookup, if_neg hk]
      exact ih hnd.2 h

theorem odLookup_insertOD_self {α : Type} (xs : List (String × α)) (k : String) (v : α) :
    odLookup (insertOD xs k v) k = some v := by
  induction xs with
  | nil => simp [insertOD, odLookup]
  | cons p ps ih =>
    by_cases h : p.1 = k
    · simp [insertOD, h, odLookup]
    · simp [insertOD, h, odLookup, ih]

theorem odLookup_insertOD_ne {α : Type} (xs : List (String × α)) (k k' : String) (v : α)
    (h : k' ≠ k) : odLookup (insertOD xs k v) k' = odLookup xs k' := by
  induction xs with
  | nil => simp [insertOD, odLookup, Ne.symm h]
  | cons p ps ih =>
    by_cases hp : p.1 = k
    · subst hp
      simp [insertOD, odLookup, Ne.symm h]
    · by_cases hp' : p.1 = k'
      · subst hp'
        simp [insertOD, hp, odLookup]
      · simp [insertOD, hp, odLookup, hp', ih]

theorem keys_insertOD_mem {α : Type} (xs : List (String × α)) (k : String) (v : α)
    (h : k ∈ xs.map Prod.fst) :
    (insertOD xs k v).map Prod.fst = xs.map Prod.fst := by
  induction xs with
  | nil => simp at h
  | cons p ps ih =>
    by_cases hp : p.1 = k
    · simp [insertOD, hp]
    · have : k ∈ ps.map Prod.fst := by
        rcases List.mem_cons.mp h with h | h
        · exact absurd h.symm hp
        · exact h
      simp [insertOD, hp, ih this]

theorem keys_insertOD_not_mem {α : Type} (xs : List (String × α)) (k : String) (v : α)
    (h : ¬ k ∈ xs.map Prod.fst) :
    (insertOD xs k v).map Prod.fst = xs.map Prod.fst ++ [k] := by
  induction xs with
  | nil => simp [insertOD]
  | cons p ps ih =>
    simp only [List.map_cons, List.mem_cons] at h
    push_neg at h
    simp [insertOD, Ne.symm h.1, ih h.2]

theorem mem_insertOD_of_ne {α : Type} {xs : List (String × α)} {k0 : String} {v0 : α}
    (k : String) (v : α) (hm : (k0, v0) ∈ xs) (hne : k0 ≠ k) :
    (k0, v0) ∈ insertOD xs k v := by
  induction xs with
  | nil => simp at hm
  | cons p ps ih =>
    by_cases hp : p.1 = k
    · rw [insertOD, if_pos hp]
      rcases List.mem_cons.mp hm with h | h
      · exact absurd (congrArg Prod.fst h.symm).symm (hp ▸ hne)
      · exact List.mem_cons_of_mem _ h
    · rw [insertOD, if_neg hp]
      rcases List.mem_cons.mp hm with h | h
      · exact h ▸ List.mem_cons_self _ _
      · exact List.mem_cons_of_mem _ (ih h)

theorem odLookup_odErase_ne {α : Type} (xs : List (String × α)) (k k' : String)
    (h : k' ≠ k) : odLookup (odErase xs k) k' = odLookup xs k' := by
  induction xs with
  | nil => simp [odErase]
  | cons p ps ih =>
    by_cases hp : p.1 = k
    · subst hp
      simp [odErase, odLookup, Ne.symm h]
    · by_cases hp' : p.1 = k'
      · subst hp'
        simp [odErase, hp, odLookup]
      · simp [odErase, hp, odLookup, hp', ih]

theorem mem_odErase_of_ne {α : Type} {xs : List (String × α)} {k0 : String} {v0 : α}
    (k : String) (hm : (k0, v0) ∈ xs) (hne : k0 ≠ k) :
    (k0, v0) ∈ odErase xs k := by
  induction xs with
  | nil => simp at hm
  | cons p ps ih =>
    by_cases hp : p.1 = k
    · rw [odErase, if_pos hp]
      rcases List.mem_cons.mp hm with h | h
      · exact absurd (congrArg Prod.fst h.symm).symm (hp ▸ hne)
      · exact h
    · rw [odErase, if_neg hp]
      rcases List.mem_cons.mp hm with h | h
      · exact h ▸ List.mem_cons_self _ _
      · exact List.mem_cons_of_mem _ (ih h)

theorem keys_odErase_sublist {α : Type} (xs : List (String × α)) (k : String) :
    ((odErase xs k).map Prod.fst).Sublist (xs.map Prod.fst) := by
  induction xs with
  | nil => simp [odErase]
  | cons p ps ih =>
    by_cases hp : p.1 = k
    · simp only [odErase, if_pos hp, List.map_cons]
      exact (List.sublist_cons_self _ _)
    · simp only [odErase, if_neg hp, List.map_cons]
      exact ih.cons₂ _

/-! ### Heap lemmas -/

theorem heapLookup_append_left {h : Heap} {i : Nat} {d : LayerData}
    (hl : heapLookup h i = some d) (l : Heap) : heapLookup (h ++ l) i = some d := by
  induction h with
  | nil => simp [heapLookup] at hl
  | cons q qs ih =>
    by_cases hq : q.1 = i
    · rw [heapLookup, if_pos hq] at hl
      simp [heapLookup, hq, hl]
    · rw [heapLookup, if_neg hq] at hl
      simp [heapLookup, hq, ih hl]

theorem heapLookup_append_none {h : Heap} {i : Nat}
    (hl : heapLookup h i = none) (l : Heap) : heapLookup (h ++ l) i = heapLookup l i := by
  induction h with
  | nil => simp [heapLookup]
  | cons q qs ih =>
    by_cases hq : q.1 = i
    · rw [heapLookup, if_pos hq] at hl
      simp at hl
    · rw [heapLookup, if_neg hq] at hl
      simp [heapLookup, hq, ih hl]

theorem heapLookup_fresh {h : Heap} {n : Nat} (hb : ∀ q ∈ h, q.1 < n) :
    heapLookup h n = none := by
  induction h with
  | nil => simp [heapLookup]
  | cons q qs ih =>
    have hq : q.1 ≠ n := Nat.ne_of_lt (hb q (List.mem_cons_self _ _))
    rw [heapLookup, if_neg hq]
    exact ih fun p hp => hb p (List.mem_cons_of_mem _ hp)

theorem heapLookup_heapSet_self {h : Heap} {i : Nat} {d0 : LayerData}
    (hl : heapLookup h i = some d0) (d : LayerData) :
    heapLookup (heapSet h i d) i = some d := by
  induction h with
  | nil => simp [heapLookup] at hl
  | cons q qs ih =>
    by_cases hq : q.1 = i
    · simp [heapSet, hq, heapLookup]
    · rw [heapLookup, if_neg hq] at hl
      simp [heapSet, hq, heapLookup, ih hl]

theorem heapLookup_heapSet_ne (h : Heap) (i j : Nat) (d : LayerData)
    (hne : j ≠ i) : heapLookup (heapSet h i d) j = heapLookup h j := by
  induction h with
  | nil => simp [heapSet, heapLookup]
  | cons q qs ih =>
    by_cases hq : q.1 = i
    · subst hq
      simp [heapSet, heapLookup, Ne.symm hne]
    · by_cases hq' : q.1 = j
      · subst hq'
        simp [heapSet, hq, heapLookup]
      · simp [heapSet, hq, heapLookup, hq', ih]

theorem heapSet_keys (h : Heap) (i : Nat) (d : LayerData) :
    (heapSet h i d).map Prod.fst = h.map Prod.fst := by
  induction h with
  | nil => simp [heapSet]
  | cons q qs ih =>
    by_cases hq : q.1 = i
    · simp [heapSet, hq]
    · simp [heapSet, hq, ih]

theorem heapSet_mem_bound {h : Heap} {n : Nat} (hb : ∀ q ∈ h, q.1 < n)
    (i : Nat) (d : LayerData) (hi : i < n) : ∀ q ∈ heapSet h i d, q.1 < n := by
  induction h with
  | nil => simp [heapSet]
  | cons q qs ih =>
    intro p hp
    by_cases hq : q.1 = i
    · rw [heapSet, if_pos hq] at hp
      rcases List.mem_cons.mp hp with h1 | h1
      · simp [h1, hi]
      · exact hb p (List.mem_cons_of_mem _ h1)
    · rw [heapSet, if_neg hq] at hp
      rcases List.mem_cons.mp hp with h1 | h1
      · exact h1 ▸ hb q (List.mem_cons_self _ _)
      · exact ih (fun p' hp' => hb p' (List.mem_cons_of_mem _ hp')) p h1

/-! ### reorder lemmas (layerOrder setter) -/

theorem dedupFirst_congr (l : List String) :
    ∀ s1 s2, (∀ x, x ∈ s1 ↔ x ∈ s2) → dedupFirst l s1 = dedupFirst l s2 := by
  induction l with
  | nil => intro s1 s2 _; rfl
  | cons n ns ih =>
    intro s1 s2 h
    by_cases hn : n ∈ s1
    · rw [dedupFirst, if_pos hn, dedupFirst, if_pos ((h n).mp hn)]
      exact ih s1 s2 h
    · rw [dedupFirst, if_neg hn, dedupFirst, if_neg (fun hc => hn ((h n).mpr hc))]
      refine congrArg (n :: ·) (ih _ _ fun x => ?_)
      simp only [List.mem_cons]
      exact or_congr Iff.rfl (h x)

theorem mem_dedupFirst (l : List String) :
    ∀ seen x, x ∈ dedupFirst l seen ↔ x ∈ l ∧ x ∉ seen := by
  induction l with
  | nil => intro seen x; simp [dedupFirst]
  | cons n ns ih =>
    intro seen x
    by_cases hn : n ∈ seen
    · rw [dedupFirst, if_pos hn, ih]
      constructor
      · rintro ⟨h1, h2⟩; exact ⟨List.mem_cons_of_mem _ h1, h2⟩
      · rintro ⟨h1, h2⟩
        rcases List.mem_cons.mp h1 with h1 | h1
        · exact absurd (h1 ▸ hn) h2
        · exact ⟨h1, h2⟩
    · rw [dedupFirst, if_neg hn]
      by_cases hx : x = n
      · subst hx
        simp [hn]
      · simp only [List.mem_cons, hx, false_or]
        rw [ih]
        simp [hx, hn]

theorem odLookup_reorderOD (L : List (String × Option Nat)) (order : List String) :
    ∀ acc k, odLookup (reorderOD L order acc) k =
      if k ∈ order ∧ containsKeyB L k = true then odLookup L k else odLookup acc k := by
  induction order with
  | nil => intro acc k; simp [reorderOD]
  | cons n ns ih =>
    intro acc k
    rw [reorderOD]
    rcases hL : odLookup L n with _ | v
    · rw [ih]
      by_cases hk : k = n
      · subst hk
        simp [containsKeyB, hL]
      · simp [List.mem_cons, hk]
    · rw [ih]
      by_cases hk : k = n
      · subst hk
        simp [containsKeyB, hL, odLookup_insertOD_self, hL]
      · rw [odLookup_insertOD_ne _ _ _ _ hk]
        simp [List.mem_cons, hk]

theorem keys_reorderOD (L : List (String × Option Nat)) (order : List String)
    (hcov : ∀ n ∈ order, containsKeyB L n = true) :
    ∀ acc, (reorderOD L order acc).map Prod.fst =
      acc.map Prod.fst ++ dedupFirst order (acc.map Prod.fst) := by
  induction order with
  | nil => intro acc; simp [reorderOD, dedupFirst]
  | cons n ns ih =>
    intro acc
    have hcn : containsKeyB L n = true := hcov n (List.mem_cons_self _ _)
    rcases hL : odLookup L n with _ | v
    · rw [containsKeyB, hL] at hcn
      simp at hcn
    · rw [reorderOD, hL]
      by_cases hn : n ∈ acc.map Prod.fst
      · rw [dedupFirst, if_pos hn]
        rw [ih (fun m hm => hcov m (List.mem_cons_of_mem _ hm)),
          keys_insertOD_mem _ _ _ hn]
      · rw [dedupFirst, if_neg hn]
        rw [ih (fun m hm => hcov m (List.mem_cons_of_mem _ hm)),
          keys_insertOD_not_mem _ _ _ hn]
        rw [dedupFirst_congr ns (acc.map Prod.fst ++ [n]) (n :: acc.map Prod.fst)
          (fun x => by simp [List.mem_append, List.mem_cons]; tauto)]
        simp

/-! ### Claim theorems: Guideline, delete-default, single-layer construction -/

deriving instance DecidableEq for Except

/-- C8: Guideline construction succeeds exactly when the geometric
invariant holds; the specification's validity table evaluates as stated;
each violated rule fails with its own distinct error message. -/
theorem guideline_geometric_invariant :
    (∀ x y angle : Option ℚ, guidelineCheck x y angle = .ok () ↔ guidelineOk x y angle)
    ∧ guidelineCheck none none none = .error (.valueError "x or y must be present")
    ∧ guidelineCheck (some 1) none (some 10) =
        .error (.valueError "if x or y are None, angle must not be present")
    ∧ guidelineCheck (some 1) (some 2) none =
        .error (.valueError "if x and y are defined, angle must be defined")
    ∧ guidelineCheck (some 1) (some 2) (some 370) =
        .error (.valueError "angle must be between 0 and 360")
    ∧ guidelineCheck (some 1) (some 2) (some 45) = .ok ()
    ∧ [guidelineCheck none none none, guidelineCheck (some 1) none (some 10),
       guidelineCheck (some 1) (some 2) none,
       guidelineCheck (some 1) (some 2) (some 370)].Nodup := by
  refine ⟨?_, by decide, by decide, by decide, by decide, by decide, by decide⟩
  intro x y angle
  rcases x with _ | a <;> rcases y with _ | b <;> rcases angle with _ | c <;>
    simp [guidelineCheck, guidelineOk]

/-- C4: deleting the entry named like the current default layer always
fails with the ConflictError (`KeyError("cannot delete default layer ...")`)
and leaves the state — hence the entry — untouched, for every LayerSet. -/
theorem delete_default_always_fails (s : LayerSet) :
    delitem s (defaultName s) =
      .error (.keyError ("cannot delete default layer " ++ defaultName s), s) := by
  rw [delitem, if_pos rfl]

/-- C10: constructing a LayerSet from exactly one layer without an
explicit default always raises TypeError — the source evaluates
`next(self._layers.values())`, and a dict values view is not an
iterator — whatever the layer is named (the default layer name included). -/
theorem single_layer_construction_type_error (l : Layer) :
    layerSetNew [l] none = .error (.typeError "odict_values object is not an iterator") := by
  simp [layerSetNew, convertLayersAux, containsKeyB, odLookup, mkLayerSet]

/-! ### Claim C3: the layerOrder setter -/

/-- A two-layer, fully loaded LayerSet (default `public.default`, one
extra layer `a`), as produced by direct construction. -/
def exC3 : LayerSet :=
  ⟨[(DEFAULT_LAYER_NAME, some 0), ("a", some 1)], 0,
   [(0, ⟨DEFAULT_LAYER_NAME, []⟩), (1, ⟨"a", []⟩)], 2, none, []⟩

/-- The state after handing the setter the duplicated sequence
`["a", "a", "public.default"]`. -/
def exC3r : LayerSet :=
  ⟨[("a", some 1), (DEFAULT_LAYER_NAME, some 0)], 0,
   [(0, ⟨DEFAULT_LAYER_NAME, []⟩), (1, ⟨"a", []⟩)], 2, none, []⟩

/-- C3 counterexample: a sequence that is *not* a permutation of the
existing layer names (it repeats `a`) is nevertheless accepted by the
layerOrder setter — Python's `assert set(order) == set(self._layers)`
collapses duplicates — refuting "succeeds if and only if the supplied
sequence is exactly a permutation". -/
theorem layerOrder_duplicate_accepted :
    setLayerOrder exC3 ["a", "a", DEFAULT_LAYER_NAME] = .ok exC3r
    ∧ ¬ List.Perm ["a", "a", DEFAULT_LAYER_NAME] (layerKeys exC3) := by
  constructor
  · rfl
  · decide

/-- C3 amended: the setter succeeds if and only if the supplied sequence
carries exactly the existing layer names as a *set* (duplicates are
permitted and collapse to their first occurrence); any other sequence
fails with the ValidationError (an AssertionError in the source) and
leaves the set unchanged; on success the entries are reordered to the
deduplicated sequence, every entry keeping its value — in particular its
Pending/Loaded state — untouched. -/
theorem layerOrder_setter_contract (s : LayerSet) (ord : List String) :
    ((∃ t, setLayerOrder s ord = .ok t) ↔
      ((∀ n ∈ ord, n ∈ layerKeys s) ∧ (∀ n ∈ layerKeys s, n ∈ ord)))
    ∧ (∀ e t, setLayerOrder s ord = .error (e, t) → e = .assertionError ∧ t = s)
    ∧ (∀ t, setLayerOrder s ord = .ok t →
        layerKeys t = dedupFirst ord []
        ∧ (∀ k, odLookup t.layers k = odLookup s.layers k)
        ∧ t.defaultId = s.defaultId ∧ t.heap = s.heap
        ∧ t.reader = s.reader ∧ t.log = s.log) := by
  have hs : sameNameSet ord (layerKeys s) = true ↔
      ((∀ n ∈ ord, n ∈ layerKeys s) ∧ (∀ n ∈ layerKeys s, n ∈ ord)) := by
    rw [sameNameSet]
    simp [List.all_eq_true]
  refine ⟨?_, ?_, ?_⟩
  · constructor
    · rintro ⟨t, ht⟩
      rw [setLayerOrder] at ht
      by_cases h : sameNameSet ord (layerKeys s) = true
      · exact hs.mp h
      · rw [if_neg h] at ht
        cases ht
    · intro h
      exact ⟨_, by rw [setLayerOrder, if_pos (hs.mpr h)]⟩
  · intro e t ht
    rw [setLayerOrder] at ht
    by_cases h : sameNameSet ord (layerKeys s) = true
    · rw [if_pos h] at ht
      cases ht
    · rw [if_neg h] at ht
      cases ht
      exact ⟨rfl, rfl⟩
  · intro t ht
    rw [setLayerOrder] at ht
    by_cases h : sameNameSet ord (layerKeys s) = true
    · rw [if_pos h] at ht
      cases ht
      have hset := hs.mp h
      have hcov : ∀ n ∈ ord, containsKeyB s.layers n = true := by
        intro n hn
        exact (containsKeyB_iff _ _).mpr (hset.1 n hn)
      refine ⟨?_, ?_, rfl, rfl, rfl, rfl⟩
      · show (reorderOD s.layers ord []).map Prod.fst = dedupFirst ord []
        rw [keys_reorderOD s.layers ord hcov []]
        rfl
      · intro k
        show odLookup (reorderOD s.layers ord []) k = odLookup s.layers k
        rw [odLookup_reorderOD]
        by_cases hk : k ∈ ord ∧ containsKeyB s.layers k = true
        · rw [if_pos hk]
        · rw [if_neg hk]
          rcases hck : containsKeyB s.layers k with _ | _
          · rw [containsKeyB] at hck
            cases hl : odLookup s.layers k with
            | none => rfl
            | some v => rw [hl] at hck; simp at hck
          · exact absurd ⟨hset.2 k ((containsKeyB_iff _ _).mp hck), hck⟩ hk
    · rw [if_neg h] at ht
      cases ht

/-- C3 witness: a set-equal reordering of the concrete two-layer set is
accepted. -/
theorem layerOrder_setter_contract_witness :
    ∃ t, setLayerOrder exC3 ["a", DEFAULT_LAYER_NAME] = .ok t :=
  (layerOrder_setter_contract exC3 ["a", DEFAULT_LAYER_NAME]).1.mpr (by decide)

/-! ### Materialization lemmas -/

theorem mem_insertOD_elim {α : Type} {xs : List (String × α)} {k : String} {v : α}
    {p : String × α} (h : p ∈ insertOD xs k v) : p = (k, v) ∨ p ∈ xs := by
  induction xs with
  | nil => simp [insertOD] at h; exact Or.inl h
  | cons q qs ih =>
    by_cases hq : q.1 = k
    · rw [insertOD, if_pos hq] at h
      rcases List.mem_cons.mp h with h | h
      · exact Or.inl h
      · exact Or.inr (List.mem_cons_of_mem _ h)
    · rw [insertOD, if_neg hq] at h
      rcases List.mem_cons.mp h with h | h
      · exact Or.inr (h ▸ List.mem_cons_self _ _)
      · rcases ih h with h | h
        · exact Or.inl h
        · exact Or.inr (List.mem_cons_of_mem _ h)

theorem obsEq_refl (s : LayerSet) : obsEq s s :=
  ⟨rfl, rfl, rfl, rfl, fun _ => rfl⟩

theorem obsEq_trans {a b c : LayerSet} (h1 : obsEq a b) (h2 : obsEq b c) : obsEq a c :=
  ⟨h1.1.trans h2.1, h1.2.1.trans h2.2.1, h1.2.2.1.trans h2.2.2.1,
   h1.2.2.2.1.trans h2.2.2.2.1, fun k => (h1.2.2.2.2 k).trans (h2.2.2.2.2 k)⟩

theorem hasGlyphB_obsEq {t s : LayerSet} (h : obsEq t s) (k g : String) :
    hasGlyphB t k g = hasGlyphB s k g := by
  rw [hasGlyphB, hasGlyphB, h.2.2.2.2 k]


/-- `g in layer` on a loaded entry agrees with the entry's logical glyph
keys. -/
theorem glyphMemB_eq_hasGlyphB {s : LayerSet} {k : String} {i : Nat}
    (h : odLookup s.layers k = some (some i)) (g : String) :
    glyphMemB s i g = hasGlyphB s k g := by
  rcases hh : heapLookup s.heap i with _ | d
  · simp [glyphMemB, hasGlyphB, glyphKeys, h, heapGlyphs, hh, containsKeyB, odLookup]
  · simp only [glyphMemB, hasGlyphB, glyphKeys, h, heapGlyphs, hh, Option.map]
    by_cases hg : g ∈ d.glyphs.map Prod.fst
    · rw [(containsKeyB_iff _ _).mpr hg]
      simp [hg]
    · rcases hc : containsKeyB d.glyphs g with _ | _
      · simp [hg]
      · exact absurd ((containsKeyB_iff _ _).mp hc) hg

/-- A raising `__getitem__` leaves the state untouched. -/
theorem getItem_err {s t : LayerSet} {k : String} {e : Err}
    (h : getItem s k = .error (e, t)) : t = s := by
  rw [getItem] at h
  split at h
  · cases h
    rfl
  · cases h
  · rw [loadLayerFn] at h
    split at h
    · cases h
      rfl
    · split at h
      · split at h
        · cases h
          rfl
        · cases h
      · cases h
        rfl

/-- Computation of `__getitem__` on a pending, store-covered entry. -/
theorem getItem_pending_eq {s : LayerSet} {k : String} {r : UFOReader}
    {gl : List (String × Glyph)}
    (hl : odLookup s.layers k = some none) (hr : s.reader = some r)
    (hg : readerGlyphs r k = some gl) :
    getItem s k = .ok (s.nextId,
      ⟨insertOD s.layers k (some s.nextId), s.defaultId,
       s.heap ++ [(s.nextId, ⟨k, gl⟩)], s.nextId + 1, s.reader,
       s.log ++ [.loadReq k]⟩) := by
  have hcb : containsKeyB s.layers k = true := by
    rw [containsKeyB, hl]
    rfl
  simp [getItem, hl, loadLayerFn, hr, hg, hcb]

/-- The master lemma for `__getitem__` on a well-formed state with a
present key: it succeeds, preserves well-formedness and every observable,
leaves the entry loaded, touches no other entry, keeps every loaded entry
and heap object, and grows the log by at most one load request. -/
theorem getItem_spec {s : LayerSet} {k : String} (hWF : WF s) (hk : k ∈ layerKeys s) :
    ∃ i t, getItem s k = .ok (i, t) ∧ WF t ∧ obsEq t s
      ∧ odLookup t.layers k = some (some i)
      ∧ (∀ k0, k0 ≠ k → odLookup t.layers k0 = odLookup s.layers k0)
      ∧ (∀ k0 j, odLookup s.layers k0 = some (some j) → odLookup t.layers k0 = some (some j))
      ∧ (∀ p ∈ s.layers, p.2 ≠ none → p ∈ t.layers)
      ∧ s.nextId ≤ t.nextId
      ∧ (∀ j (d : LayerData), heapLookup s.heap j = some d → heapLookup t.heap j = some d)
      ∧ (∃ tail, t.log = s.log ++ tail) := by
  obtain ⟨hnd, hdlt, hhb, hhnd, hload, hpend⟩ := hWF
  have hk' : k ∈ s.layers.map Prod.fst := hk
  rcases hl : odLookup s.layers k with _ | ent
  · have h1 := (odLookup_isSome_iff s.layers k).mpr hk'
    rw [hl] at h1
    simp at h1
  · rcases ent with _ | i
    · -- pending entry: loadLayer materializes it
      have hmem : (k, (none : Option Nat)) ∈ s.layers := odLookup_mem hl
      rcases hr : s.reader with _ | r
      · have hcov := hpend _ hmem rfl
        simp [readerCovers, hr] at hcov
      · have hcov := hpend _ hmem rfl
        simp only [readerCovers, hr] at hcov
        rcases hg : readerGlyphs r k with _ | gl
        · rw [readerHas, hg] at hcov
          simp at hcov
        · have hfresh : heapLookup s.heap s.nextId = none := heapLookup_fresh hhb
          refine ⟨s.nextId, _, getItem_pending_eq hl hr hg,
            ?_, ?_, ?_, ?_, ?_, ?_, ?_, ?_, ?_⟩
          · -- WF of the new state
            refine ⟨?_, Nat.lt_succ_of_lt hdlt, ?_, ?_, ?_, ?_⟩
            · show ((insertOD s.layers k (some s.nextId)).map Prod.fst).Nodup
              rw [keys_insertOD_mem _ _ _ hk']
              exact hnd
            · intro q hq
              rcases List.mem_append.mp hq with h1 | h1
              · exact Nat.lt_succ_of_lt (hhb q h1)
              · simp only [List.mem_singleton] at h1
                rw [h1]
                exact Nat.lt_succ_self _
            · show ((s.heap ++ [(s.nextId, (⟨k, gl⟩ : LayerData))]).map Prod.fst).Nodup
              rw [List.map_append, List.nodup_append]
              refine ⟨hhnd, List.nodup_singleton _, ?_⟩
              intro a ha
              simp only [List.map_cons, List.map_nil, List.mem_singleton]
              intro hc
              rcases List.mem_map.mp ha with ⟨q, hq, hq'⟩
              exact absurd (hq' ▸ hc ▸ hhb q hq) (Nat.lt_irrefl _)
            · intro p hp j hj
              rcases mem_insertOD_elim hp with h1 | h1
              · rw [h1] at hj ⊢
                simp only at hj
                cases hj
                refine ⟨Nat.lt_succ_self _, ?_⟩
                show (heapLookup (s.heap ++ [(s.nextId, (⟨k, gl⟩ : LayerData))]) s.nextId).map LayerData.name = some k
                rw [heapLookup_append_none hfresh]
                simp [heapLookup]
              · obtain ⟨hb1, hb2⟩ := hload p h1 j hj
                refine ⟨Nat.lt_succ_of_lt hb1, ?_⟩
                rw [heapName] at hb2
                rcases hh : heapLookup s.heap j with _ | d
                · rw [hh] at hb2
                  cases hb2
                · rw [hh] at hb2
                  show (heapLookup (s.heap ++ _) j).map LayerData.name = some p.1
                  rw [heapLookup_append_left hh]
                  exact hb2
            · intro p hp hpn
              rcases mem_insertOD_elim hp with h1 | h1
              · rw [h1] at hpn
                simp at hpn
              · have h2 := hpend p h1 hpn
                rw [readerCovers] at h2 ⊢
                exact h2
          · -- observables preserved
            refine ⟨?_, rfl, rfl, ?_, ?_⟩
            · show (insertOD s.layers k (some s.nextId)).map Prod.fst = s.layers.map Prod.fst
              exact keys_insertOD_mem _ _ _ hk'
            · show defaultName _ = defaultName s
              rw [defaultName, defaultName]
              rcases hh : heapLookup s.heap s.defaultId with _ | d
              · have h2 : heapLookup (s.heap ++ [(s.nextId, (⟨k, gl⟩ : LayerData))]) s.defaultId = none := by
                  rw [heapLookup_append_none hh]
                  simp [heapLookup, Ne.symm (Nat.ne_of_lt hdlt)]
                simp only [h2]
              · simp only [heapLookup_append_left hh, hh]
            · intro k0
              by_cases hk0 : k0 = k
              · subst hk0
                simp only [glyphKeys, hl, hr, odLookup_insertOD_self]
                rw [heapLookup_append_none hfresh]
                simp [heapLookup, hg]
              · simp only [glyphKeys, odLookup_insertOD_ne _ _ _ _ hk0]
                rcases hl0 : odLookup s.layers k0 with _ | ent0
                · rfl
                · rcases ent0 with _ | j
                  · rfl
                  · obtain ⟨_, hb2⟩ := hload _ (odLookup_mem hl0) j rfl
                    rw [heapName] at hb2
                    rcases hh : heapLookup s.heap j with _ | d
                    · rw [hh] at hb2
                      cases hb2
                    · simp [heapLookup_append_left hh, hh]
          · exact odLookup_insertOD_self _ _ _
          · intro k0 hk0
            exact odLookup_insertOD_ne _ _ _ _ hk0
          · intro k0 j hj
            by_cases hk0 : k0 = k
            · subst hk0
              rw [hl] at hj
              cases hj
            · rw [odLookup_insertOD_ne _ _ _ _ hk0]
              exact hj
          · intro p hp hpn
            have hpk : p.1 ≠ k := by
              intro he
              have h2 := mem_odLookup hnd (show (p.1, p.2) ∈ s.layers from hp)
              rw [he, hl] at h2
              injection h2 with h3
              exact hpn h3.symm
            exact mem_insertOD_of_ne _ _ hp hpk
          · exact Nat.le_succ _
          · intro j d hj
            exact heapLookup_append_left hj _
          · exact ⟨[.loadReq k], rfl⟩
    · -- already loaded
      refine ⟨i, s, ?_, ⟨hnd, hdlt, hhb, hhnd, hload, hpend⟩, obsEq_refl s, hl,
        fun _ _ => rfl, fun _ _ h => h, fun p hp _ => hp, Nat.le_refl _,
        fun _ _ h => h, ⟨[], by simp⟩⟩
      rw [getItem, hl]

/-! ### renameGlyph phase lemmas -/

/-- `any(name in layer for layer in self)` when no layer has the glyph:
the whole set is walked (materializing pendings), `false` is returned,
and every observable is unchanged. -/
theorem anyHasGlyph_not_found (g : String) : ∀ (ks : List String) (s : LayerSet), WF s →
    (∀ k ∈ ks, k ∈ layerKeys s) → (∀ k ∈ ks, hasGlyphB s k g = false) →
    ∃ t, anyHasGlyph ks s g = .ok (false, t) ∧ WF t ∧ obsEq t s
      ∧ (∀ p ∈ s.layers, p.2 ≠ none → p ∈ t.layers) := by
  intro ks
  induction ks with
  | nil =>
    intro s hWF _ _
    exact ⟨s, rfl, hWF, obsEq_refl s, fun p hp _ => hp⟩
  | cons k ks ih =>
    intro s hWF hks hg
    obtain ⟨i, t1, hget, hWF1, hobs1, hlk, hne1, hlkp, hmem1, hle1, hheap1, hlog1⟩ :=
      getItem_spec hWF (hks k (List.mem_cons_self _ _))
    have hgm : glyphMemB t1 i g = false := by
      rw [glyphMemB_eq_hasGlyphB hlk, hasGlyphB_obsEq hobs1]
      exact hg k (List.mem_cons_self _ _)
    obtain ⟨t, hrec, hWFt, hobst, hmemt⟩ :=
      ih t1 hWF1
        (fun k0 hk0 => hobs1.1 ▸ hks k0 (List.mem_cons_of_mem _ hk0))
        (fun k0 hk0 => (hasGlyphB_obsEq hobs1 k0 g).trans (hg k0 (List.mem_cons_of_mem _ hk0)))
    refine ⟨t, ?_, hWFt, obsEq_trans hobst hobs1, ?_⟩
    · simp [anyHasGlyph, hget, hgm, hrec]
    · intro p hp hpn
      exact hmemt _ (hmem1 p hp hpn) hpn

/-- `any(name in layer for layer in self)` when some layer has the glyph:
`true` is returned and every observable is unchanged. -/
theorem anyHasGlyph_found (g : String) : ∀ (ks : List String) (s : LayerSet), WF s →
    (∀ k ∈ ks, k ∈ layerKeys s) → (∃ k ∈ ks, hasGlyphB s k g = true) →
    ∃ t, anyHasGlyph ks s g = .ok (true, t) ∧ WF t ∧ obsEq t s
      ∧ (∀ p ∈ s.layers, p.2 ≠ none → p ∈ t.layers) := by
  intro ks
  induction ks with
  | nil =>
    intro s _ _ hex
    simp at hex
  | cons k ks ih =>
    intro s hWF hks hex
    obtain ⟨i, t1, hget, hWF1, hobs1, hlk, hne1, hlkp, hmem1, hle1, hheap1, hlog1⟩ :=
      getItem_spec hWF (hks k (List.mem_cons_self _ _))
    rcases hcase : hasGlyphB s k g with _ | _
    · -- the witness is further down the list
      obtain ⟨k0, hk0m, hk0⟩ := hex
      have hk0ks : k0 ∈ ks := by
        rcases List.mem_cons.mp hk0m with h | h
        · rw [h, hcase] at hk0
          cases hk0
        · exact h
      have hgm : glyphMemB t1 i g = false := by
        rw [glyphMemB_eq_hasGlyphB hlk, hasGlyphB_obsEq hobs1]
        exact hcase
      obtain ⟨t, hrec, hWFt, hobst, hmemt⟩ :=
        ih t1 hWF1
          (fun k1 hk1 => hobs1.1 ▸ hks k1 (List.mem_cons_of_mem _ hk1))
          ⟨k0, hk0ks, (hasGlyphB_obsEq hobs1 k0 g).trans hk0⟩
      refine ⟨t, ?_, hWFt, obsEq_trans hobst hobs1, ?_⟩
      · simp [anyHasGlyph, hget, hgm, hrec]
      · intro p hp hpn
        exact hmemt _ (hmem1 p hp hpn) hpn
    · have hgm : glyphMemB t1 i g = true := by
        rw [glyphMemB_eq_hasGlyphB hlk, hasGlyphB_obsEq hobs1]
        exact hcase
      refine ⟨t1, ?_, hWF1, hobs1, hmem1⟩
      simp [anyHasGlyph, hget, hgm]

/-- The destination-preparation loop with `overwrite = False`, when some
layer already has the target name: it raises the conflict KeyError, and —
because the non-overwriting branch deletes nothing — every observable is
unchanged at the raise. -/
theorem conflictPass_conflict (g : String) : ∀ (ks : List String) (s : LayerSet), WF s →
    (∀ k ∈ ks, k ∈ layerKeys s) → (∃ k ∈ ks, hasGlyphB s k g = true) →
    ∃ t, conflictPass ks s g false =
        .error (.keyError ("target name " ++ g ++ " already exists"), t)
      ∧ obsEq t s ∧ (∀ p ∈ s.layers, p.2 ≠ none → p ∈ t.layers) := by
  intro ks
  induction ks with
  | nil =>
    intro s _ _ hex
    simp at hex
  | cons k ks ih =>
    intro s hWF hks hex
    obtain ⟨i, t1, hget, hWF1, hobs1, hlk, hne1, hlkp, hmem1, hle1, hheap1, hlog1⟩ :=
      getItem_spec hWF (hks k (List.mem_cons_self _ _))
    rcases hcase : hasGlyphB s k g with _ | _
    · obtain ⟨k0, hk0m, hk0⟩ := hex
      have hk0ks : k0 ∈ ks := by
        rcases List.mem_cons.mp hk0m with h | h
        · rw [h, hcase] at hk0
          cases hk0
        · exact h
      have hgm : glyphMemB t1 i g = false := by
        rw [glyphMemB_eq_hasGlyphB hlk, hasGlyphB_obsEq hobs1]
        exact hcase
      obtain ⟨t, hrec, hobst, hmemt⟩ :=
        ih t1 hWF1
          (fun k1 hk1 => hobs1.1 ▸ hks k1 (List.mem_cons_of_mem _ hk1))
          ⟨k0, hk0ks, (hasGlyphB_obsEq hobs1 k0 g).trans hk0⟩
      refine ⟨t, ?_, obsEq_trans hobst hobs1, ?_⟩
      · simp [conflictPass, hget, hgm, hrec]
      · intro p hp hpn
        exact hmemt _ (hmem1 p hp hpn) hpn
    · have hgm : glyphMemB t1 i g = true := by
        rw [glyphMemB_eq_hasGlyphB hlk, hasGlyphB_obsEq hobs1]
        exact hcase
      refine ⟨t1, ?_, hobs1, hmem1⟩
      simp [conflictPass, hget, hgm]

/-! ### Claims C1 and C9: renameGlyph failure modes -/

/-- A one-layer LayerSet whose default layer holds only the glyph `b`. -/
def exC1 : LayerSet :=
  ⟨[(DEFAULT_LAYER_NAME, some 0)], 0,
   [(0, ⟨DEFAULT_LAYER_NAME, [("b", ⟨"b", 0⟩)]⟩)], 1, none, []⟩

/-- C1 counterexample: with `old = "a"` absent from every layer and
`new = "b"` present, `renameGlyph("a","b",overwrite=False)` fails — but
with the missing-name LookupError (`KeyError("name ... is not in layer
set")`), not the ConflictError the claim asserts for every `old ≠ new`
with `new` present. -/
theorem renameGlyph_conflict_counterexample :
    renameGlyph exC1 "a" "b" false =
      .error (.keyError "name a is not in layer set", exC1)
    ∧ hasGlyphB exC1 DEFAULT_LAYER_NAME "b" = true
    ∧ Err.keyError "name a is not in layer set"
        ≠ Err.keyError ("target name " ++ "b" ++ " already exists") := by
  refine ⟨by rfl, by rfl, by decide⟩

/-- A one-layer LayerSet whose default layer holds the glyphs `a` and `b`. -/
def exC1w : LayerSet :=
  ⟨[(DEFAULT_LAYER_NAME, some 0)], 0,
   [(0, ⟨DEFAULT_LAYER_NAME, [("a", ⟨"a", 1⟩), ("b", ⟨"b", 2⟩)]⟩)], 1, none, []⟩

/-- C1 amended: for a well-formed LayerSet, `old ≠ new`, *`old` present in
at least one layer*, and `new` present in at least one layer,
`renameGlyph(old, new, overwrite=False)` fails with the ConflictError and
every observable — the layer order, every layer's glyph-key mapping, the
default layer — is identical before and after the failed call. -/
theorem renameGlyph_conflict_atomic (s : LayerSet) (old new : String)
    (hWF : WF s) (hne : old ≠ new)
    (hold : ∃ k ∈ layerKeys s, hasGlyphB s k old = true)
    (hnew : ∃ k ∈ layerKeys s, hasGlyphB s k new = true) :
    ∃ t, renameGlyph s old new false =
        .error (.keyError ("target name " ++ new ++ " already exists"), t)
      ∧ layerKeys t = layerKeys s
      ∧ (∀ k, glyphKeys t k = glyphKeys s k)
      ∧ t.defaultId = s.defaultId ∧ defaultName t = defaultName s := by
  obtain ⟨t1, h1, hWF1, hobs1, hmem1⟩ :=
    anyHasGlyph_found old (layerKeys s) s hWF (fun _ h => h) hold
  obtain ⟨k0, hk0m, hk0⟩ := hnew
  obtain ⟨t2, h2, hobs2, hmem2⟩ :=
    conflictPass_conflict new (layerKeys t1) t1 hWF1 (fun _ h => h)
      ⟨k0, hobs1.1.symm ▸ hk0m, (hasGlyphB_obsEq hobs1 k0 new).trans hk0⟩
  have hobs := obsEq_trans hobs2 hobs1
  refine ⟨t2, ?_, hobs.1, hobs.2.2.2.2, hobs.2.1, hobs.2.2.2.1⟩
  simp [renameGlyph, hne, h1, h2]

/-- C1 witness: the amended statement applies to the concrete one-layer
set holding glyphs `a` and `b`. -/
theorem renameGlyph_conflict_atomic_witness :
    ∃ t, renameGlyph exC1w "a" "b" false =
        .error (.keyError ("target name " ++ "b" ++ " already exists"), t)
      ∧ layerKeys t = layerKeys exC1w
      ∧ (∀ k, glyphKeys t k = glyphKeys exC1w k)
      ∧ t.defaultId = exC1w.defaultId ∧ defaultName t = defaultName exC1w :=
  renameGlyph_conflict_atomic exC1w "a" "b" (by decide) (by decide)
    (by decide) (by decide)

/-- The backing store for the C9 counterexample: a default layer plus one
unread layer `side` holding the glyph `x`. -/
def exR9 : UFOReader :=
  ⟨3, [DEFAULT_LAYER_NAME, "side"], DEFAULT_LAYER_NAME,
   [(DEFAULT_LAYER_NAME, []), ("side", [("x", ⟨"x", 7⟩)])]⟩

/-- The lazily-read LayerSet backed by `exR9`: the default loaded, `side`
pending. -/
def exC9s : LayerSet :=
  ⟨[(DEFAULT_LAYER_NAME, some 0), ("side", none)], 0,
   [(0, ⟨DEFAULT_LAYER_NAME, []⟩)], 1, some exR9, [.loadReq DEFAULT_LAYER_NAME]⟩

/-- The same set after the failed rename: `side` has been materialized. -/
def exC9t : LayerSet :=
  ⟨[(DEFAULT_LAYER_NAME, some 0), ("side", some 1)], 0,
   [(0, ⟨DEFAULT_LAYER_NAME, []⟩), (1, ⟨"side", [("x", ⟨"x", 7⟩)]⟩)], 2, some exR9,
   [.loadReq DEFAULT_LAYER_NAME, .loadReq "side"]⟩

/-- C9 counterexample, two parts.  First, with `old = new` both absent,
`renameGlyph` returns silently instead of failing with a LookupError.
Second, on a lazily-read set with a Pending entry, the failing call
*does* mutate the set: validation materializes the pending entry in
place, so the state after the failure differs from the state before. -/
theorem renameGlyph_missing_counterexample :
    renameGlyph exC9s "nope" "nope" false = .ok exC9s
    ∧ layerSetRead exR9 true = .ok exC9s
    ∧ renameGlyph exC9s "nope" "x" false =
        .error (.keyError "name nope is not in layer set", exC9t)
    ∧ exC9t ≠ exC9s := by
  refine ⟨by rfl, by rfl, by rfl, by decide⟩

/-- C9 amended: for a well-formed LayerSet, `old ≠ new`, and `old` absent
from every layer, `renameGlyph(old, new, overwrite)` fails with the
LookupError and changes no observable — no layer's glyph-key mapping, the
layer order, and the default are as before — though Pending entries
visited by the validation walk are materialized in place. -/
theorem renameGlyph_missing_spec (s : LayerSet) (old new : String) (ow : Bool)
    (hWF : WF s) (hne : old ≠ new)
    (habs : ∀ k ∈ layerKeys s, hasGlyphB s k old = false) :
    ∃ t, renameGlyph s old new ow =
        .error (.keyError ("name " ++ old ++ " is not in layer set"), t)
      ∧ layerKeys t = layerKeys s
      ∧ (∀ k, glyphKeys t k = glyphKeys s k)
      ∧ t.defaultId = s.defaultId ∧ defaultName t = defaultName s
      ∧ t.reader = s.reader := by
  obtain ⟨t1, h1, _, hobs1, _⟩ :=
    anyHasGlyph_not_found old (layerKeys s) s hWF (fun _ h => h) habs
  refine ⟨t1, ?_, hobs1.1, hobs1.2.2.2.2, hobs1.2.1, hobs1.2.2.2.1, hobs1.2.2.1⟩
  simp [renameGlyph, hne, h1]

/-- C9 witness: the amended statement applies to the concrete set holding
only the glyphs `a` and `b`, with the absent name `zz`. -/
theorem renameGlyph_missing_spec_witness :
    ∃ t, renameGlyph exC1w "zz" "q" false =
        .error (.keyError ("name " ++ "zz" ++ " is not in layer set"), t)
      ∧ layerKeys t = layerKeys exC1w
      ∧ (∀ k, glyphKeys t k = glyphKeys exC1w k)
      ∧ t.defaultId = exC1w.defaultId ∧ defaultName t = defaultName exC1w
      ∧ t.reader = exC1w.reader :=
  renameGlyph_missing_spec exC1w "zz" "q" false (by decide) (by decide) (by decide)

/-! ### read lemmas and Claim C5 -/

/-- Extraction for a successful `__attrs_post_init__` with an explicit
default argument. -/
theorem mkLayerSet_some_ok {layers : List (String × Option Nat)} {d : Nat}
    {heap : Heap} {nid : Nat} {rdr : Option UFOReader} {log : List Event}
    {s : LayerSet} (h : mkLayerSet layers (some d) heap nid rdr log = .ok s) :
    s = ⟨layers, d, heap, nid, rdr, log⟩ := by
  rw [mkLayerSet] at h
  split at h
  · cases h
  · split at h
    · cases h
      rfl
    · cases h

/-- In a lazy `read`, every non-default key of the built mapping is
either carried over from the accumulator or recorded as Pending. -/
theorem readLoop_lazy_pending (r : UFOReader) :
    ∀ (ns : List String) (layers : List (String × Option Nat)) (dflt : Option Nat)
      (heap : Heap) (nid : Nat) (log : List Event) (out : List (String × Option Nat) × Option Nat × Heap × Nat × List Event),
      readLoop r true ns layers dflt heap nid log = .ok out →
      ∀ k, k ≠ r.defaultLayerName →
        odLookup out.1 k = odLookup layers k ∨ odLookup out.1 k = some none := by
  intro ns
  induction ns with
  | nil =>
    intro layers dflt heap nid log out h k _
    cases h
    exact Or.inl rfl
  | cons n ns ih =>
    intro layers dflt heap nid log out h k hk
    rw [readLoop] at h
    split at h
    · -- n is the default name (lazy mode: the other disjunct is ¬True)
      rename_i hcond
      have hn : n = r.defaultLayerName := by
        rcases hcond with h1 | h1
        · exact h1
        · simp at h1
      split at h
      · cases h
      · have := ih _ _ _ _ _ _ h k hk
        rcases this with h1 | h1
        · rw [odLookup_insertOD_ne _ _ _ _ (hn ▸ hk)] at h1
          exact Or.inl h1
        · exact Or.inr h1
    · have := ih _ _ _ _ _ _ h k hk
      rcases this with h1 | h1
      · by_cases hkn : k = n
        · subst hkn
          rw [odLookup_insertOD_self] at h1
          exact Or.inr h1
        · rw [odLookup_insertOD_ne _ _ _ _ hkn] at h1
          exact Or.inl h1
      · exact Or.inr h1

/-- After a lazy `read`, the reader is remembered and every present
non-default entry is Pending. -/
theorem layerSetRead_lazy_struct {r : UFOReader} {s : LayerSet}
    (h : layerSetRead r true = .ok s) :
    s.reader = some r
    ∧ ∀ k, k ≠ r.defaultLayerName → k ∈ layerKeys s →
        odLookup s.layers k = some none := by
  rw [layerSetRead] at h
  rcases hloop : readLoop r true r.layerNames [] none [] 0 [] with e | ⟨layers1, dflt1, heap1, nid1, log1⟩
  · rw [hloop] at h
    cases h
  · rw [hloop] at h
    rcases dflt1 with _ | d
    · cases h
    · have h2 : mkLayerSet layers1 (some d) heap1 nid1 (some r) log1 = .ok s := h
      have hs := mkLayerSet_some_ok h2
      subst hs
      refine ⟨rfl, ?_⟩
      intro k hk hkm
      have h0 := readLoop_lazy_pending r r.layerNames [] none [] 0 []
        (layers1, some d, heap1, nid1, log1) hloop k hk
      rcases h0 with h1 | h1
      · have h3 := (odLookup_isSome_iff layers1 k).mpr hkm
        rw [h1] at h3
        simp [odLookup] at h3
      · exact h1

/-- C5: after `read(store, lazy=True)`, the first subscript access to a
present non-default layer name issues exactly one load request and
replaces the Pending entry in place; every further access returns the
same stored Layer with no state change and no further store access; a
name absent from the mapping fails with LookupError (KeyError). -/
theorem lazy_get_memoizes (r : UFOReader) (s : LayerSet) (name : String)
    (hread : layerSetRead r true = .ok s)
    (hmem : name ∈ layerKeys s)
    (hnd : name ≠ r.defaultLayerName)
    (hcov : readerHas r name = true) :
    ∃ i t, getItem s name = .ok (i, t)
      ∧ t.log = s.log ++ [.loadReq name]
      ∧ odLookup t.layers name = some (some i)
      ∧ (∀ k, k ≠ name → odLookup t.layers k = odLookup s.layers k)
      ∧ getItem t name = .ok (i, t)
      ∧ (∀ n, odLookup s.layers n = none → getItem s n = .error (.keyError n, s)) := by
  obtain ⟨hrdr, hpend⟩ := layerSetRead_lazy_struct hread
  have hl : odLookup s.layers name = some none := hpend name hnd hmem
  rcases hg : readerGlyphs r name with _ | gl
  · rw [readerHas, hg] at hcov
    simp at hcov
  · refine ⟨s.nextId, _, getItem_pending_eq hl hrdr hg, rfl,
      odLookup_insertOD_self _ _ _,
      fun k hk => odLookup_insertOD_ne _ _ _ _ hk, ?_, ?_⟩
    · simp [getItem, odLookup_insertOD_self]
    · intro n hn
      simp [getItem, hn]

/-- C5 witness: on the concrete lazily-read store, getting `side` loads
once and memoizes. -/
theorem lazy_get_memoizes_witness :
    ∃ i t, getItem exC9s "side" = .ok (i, t)
      ∧ t.log = exC9s.log ++ [.loadReq "side"]
      ∧ odLookup t.layers "side" = some (some i)
      ∧ (∀ k, k ≠ "side" → odLookup t.layers k = odLookup exC9s.layers k)
      ∧ getItem t "side" = .ok (i, t)
      ∧ (∀ n, odLookup exC9s.layers n = none → getItem exC9s n = .error (.keyError n, exC9s)) :=
  lazy_get_memoizes exR9 exC9s "side" (by rfl) (by decide) (by decide) (by rfl)

/-! ### write lemmas and Claim C6 -/

/-- The write handles an in-place write obtains: one per loaded entry, in
order, tagged with whether the entry is the default layer. -/
def wlEvents (L : List (String × Option Nat)) (d : Nat) (ks : List String) : List Event :=
  ks.filterMap fun k =>
    match odLookup L k with
    | some (some i) => some (.writeGS k (decide (i = d)))
    | _ => none

/-- The in-place write loop (`saveAs = False`): it never fails, mutates
nothing but the log, skips pending entries, and writes each loaded entry
in order. -/
theorem writeLoop_false_eq : ∀ (ks : List String) (s : LayerSet),
    writeLoop false ks s = .ok { s with log := s.log ++ wlEvents s.layers s.defaultId ks } := by
  intro ks
  induction ks with
  | nil =>
    intro s
    simp [writeLoop, wlEvents]
  | cons k ks ih =>
    intro s
    rcases hl : odLookup s.layers k with _ | ent
    · simp [writeLoop, hl, ih, wlEvents]
    · rcases ent with _ | i
      · simp [writeLoop, hl, ih, wlEvents]
      · simp [writeLoop, hl, ih, wlEvents]

/-- Membership in the in-place deletion diff. -/
theorem mem_deleteDiff (w : UFOWriter) (s : LayerSet) (n : String) :
    Event.deleteReq n ∈ deleteDiff w s ↔ (n ∈ w.layerNames ∧ ¬ n ∈ layerKeys s) := by
  rw [deleteDiff]
  constructor
  · intro h
    rcases List.mem_map.mp h with ⟨m, hm, hme⟩
    injection hme with hme
    subst hme
    rcases List.mem_filter.mp hm with ⟨h1, h2⟩
    refine ⟨((mem_dedupFirst w.layerNames [] m).mp h1).1, ?_⟩
    intro hc
    simp [(containsKeyB_iff _ _).mpr hc] at h2
  · rintro ⟨h1, h2⟩
    refine List.mem_map.mpr ⟨n, List.mem_filter.mpr ⟨(mem_dedupFirst w.layerNames [] n).mpr ⟨h1, by simp⟩, ?_⟩, rfl⟩
    rcases hc : containsKeyB s.layers n with _ | _
    · simp
    · exact absurd ((containsKeyB_iff _ _).mp hc) h2

/-- C6: writing back to the origin store in place (`saveAs=False`)
succeeds, deletes from the store exactly the persisted layer names absent
from the in-memory set, issues no load request at all (Pending entries are
skipped, not written), leaves the in-memory state untouched except for
the I/O log, and finally commits the in-memory order as the manifest. -/
theorem write_in_place_contract (s : LayerSet) (w : UFOWriter) :
    ∃ t, layerSetWrite s w (some false) = .ok t
      ∧ t.layers = s.layers ∧ t.defaultId = s.defaultId ∧ t.heap = s.heap
      ∧ t.nextId = s.nextId ∧ t.reader = s.reader
      ∧ t.log = s.log ++ deleteDiff w s ++ wlEvents s.layers s.defaultId (layerKeys s)
          ++ [.manifest (layerKeys s)]
      ∧ (∀ n, Event.deleteReq n ∈ deleteDiff w s ↔ (n ∈ w.layerNames ∧ ¬ n ∈ layerKeys s))
      ∧ (∀ n, ¬ Event.loadReq n ∈ deleteDiff w s ++ wlEvents s.layers s.defaultId (layerKeys s)
          ++ [Event.manifest (layerKeys s)])
      ∧ (∀ k b, Event.writeGS k b ∈ wlEvents s.layers s.defaultId (layerKeys s) →
          ¬ odLookup s.layers k = some none) := by
  refine ⟨{ s with log := s.log ++ deleteDiff w s ++ wlEvents s.layers s.defaultId (layerKeys s) ++ [.manifest (layerKeys s)] }, ?_, rfl, rfl, rfl, rfl, rfl, rfl, fun n => mem_deleteDiff w s n, ?_, ?_⟩
  · rw [layerSetWrite]
    simp only [writeLoop_false_eq]
    simp [layerKeys, List.append_assoc]
  · intro n h
    rcases List.mem_append.mp h with h | h
    · rcases List.mem_append.mp h with h | h
      · rcases List.mem_map.mp h with ⟨m, _, hme⟩
        cases hme
      · rcases List.mem_filterMap.mp h with ⟨m, _, hme⟩
        rcases hlm : odLookup s.layers m with _ | ent
        · rw [hlm] at hme
          simp at hme
        · rcases ent with _ | i
          · rw [hlm] at hme
            simp at hme
          · rw [hlm] at hme
            simp at hme
    · simp at h
  · intro k b h hl
    rcases List.mem_filterMap.mp h with ⟨m, _, hme⟩
    rcases hlm : odLookup s.layers m with _ | ent
    · rw [hlm] at hme
      simp at hme
    · rcases ent with _ | i
      · rw [hlm] at hme
        simp at hme
      · rw [hlm] at hme
        simp at hme
        obtain ⟨hme1, -⟩ := hme
        subst hme1
        rw [hl] at hlm
        simp at hlm

/-! ### saveAs write lemmas and Claim C7 -/

/-- The I/O trace of the per-layer loop under `saveAs`: a pending entry
costs one load request immediately followed by its write handle (tagged
not-default, as the source computes the flag from the sentinel); a loaded
entry costs one write handle tagged by identity with the default. -/
def saveAsTail (L : List (String × Option Nat)) (d : Nat) : List String → List Event
  | [] => []
  | k :: ks =>
    match odLookup L k with
    | none => saveAsTail L d ks
    | some none => .loadReq k :: .writeGS k false :: saveAsTail L d ks
    | some (some i) => .writeGS k (decide (i = d)) :: saveAsTail L d ks

/-- The layer name a write-handle event names, if any. -/
def evWriteName : Event → Option String
  | .writeGS n _ => some n
  | _ => none

theorem saveAsTail_congr (d : Nat) : ∀ (ks : List String) (L1 L2 : List (String × Option Nat)),
    (∀ k ∈ ks, odLookup L1 k = odLookup L2 k) →
    saveAsTail L1 d ks = saveAsTail L2 d ks := by
  intro ks
  induction ks with
  | nil => intro L1 L2 _; rfl
  | cons k ks ih =>
    intro L1 L2 h
    have hk := h k (List.mem_cons_self _ _)
    have hrest := ih L1 L2 fun k0 hk0 => h k0 (List.mem_cons_of_mem _ hk0)
    rw [saveAsTail, saveAsTail, hk, hrest]

theorem saveAsTail_write_names (L : List (String × Option Nat)) (d : Nat) :
    ∀ ks : List String, (∀ k ∈ ks, containsKeyB L k = true) →
    (saveAsTail L d ks).filterMap evWriteName = ks := by
  intro ks
  induction ks with
  | nil => intro _; rfl
  | cons k ks ih =>
    intro h
    have hk := h k (List.mem_cons_self _ _)
    have hrest := ih fun k0 hk0 => h k0 (List.mem_cons_of_mem _ hk0)
    rcases hl : odLookup L k with _ | ent
    · rw [containsKeyB, hl] at hk
      simp at hk
    · rcases ent with _ | i
      · simp [saveAsTail, hl, evWriteName, hrest]
      · simp [saveAsTail, hl, evWriteName, hrest]

theorem saveAsTail_no_delete (L : List (String × Option Nat)) (d : Nat) (n : String) :
    ∀ ks : List String, ¬ Event.deleteReq n ∈ saveAsTail L d ks := by
  intro ks
  induction ks with
  | nil => simp [saveAsTail]
  | cons k ks ih =>
    rcases hl : odLookup L k with _ | ent
    · simp [saveAsTail, hl, ih]
    · rcases ent with _ | i
      · simp [saveAsTail, hl, ih]
      · simp [saveAsTail, hl, ih]

theorem saveAsTail_pending_infix (L : List (String × Option Nat)) (d : Nat) (k : String)
    (h : odLookup L k = some none) :
    ∀ ks : List String, k ∈ ks →
      List.IsInfix [Event.loadReq k, Event.writeGS k false] (saveAsTail L d ks) := by
  intro ks
  induction ks with
  | nil => simp
  | cons k0 ks ih =>
    intro hmem
    by_cases hk0 : k0 = k
    · subst hk0
      rw [saveAsTail, h]
      exact ⟨[], saveAsTail L d ks, rfl⟩
    · have hks : k ∈ ks := by
        rcases List.mem_cons.mp hmem with h1 | h1
        · exact absurd h1.symm hk0
        · exact h1
      obtain ⟨u, v, huv⟩ := ih hks
      rcases hl : odLookup L k0 with _ | ent
      · rw [saveAsTail, hl]
        exact ⟨u, v, huv⟩
      · rcases ent with _ | i
        · rw [saveAsTail, hl]
          exact ⟨.loadReq k0 :: .writeGS k0 false :: u, v, by rw [← huv]; simp⟩
        · rw [saveAsTail, hl]
          exact ⟨.writeGS k0 (decide (i = d)) :: u, v, by rw [← huv]; simp⟩

/-- The per-layer loop under `saveAs = True` on a well-formed state:
every listed pending entry is materialized (one load request, immediately
before its own write), every listed entry gets a write handle in order,
nothing else changes, and loaded entries survive. -/
theorem writeLoop_true_spec : ∀ (ks : List String) (s : LayerSet), WF s →
    (∀ k ∈ ks, k ∈ layerKeys s) → ks.Nodup →
    ∃ t, writeLoop true ks s = .ok t ∧ WF t
      ∧ layerKeys t = layerKeys s ∧ t.defaultId = s.defaultId
      ∧ t.log = s.log ++ saveAsTail s.layers s.defaultId ks
      ∧ (∀ k ∈ ks, ¬ odLookup t.layers k = some none)
      ∧ (∀ k, ¬ k ∈ ks → odLookup t.layers k = odLookup s.layers k)
      ∧ (∀ p ∈ s.layers, p.2 ≠ none → p ∈ t.layers) := by
  intro ks
  induction ks with
  | nil =>
    intro s hWF _ _
    exact ⟨s, rfl, hWF, rfl, rfl, by simp [saveAsTail], by simp, fun _ _ => rfl,
      fun p hp _ => hp⟩
  | cons k ks ih =>
    intro s hWF hks hnd
    have hkmem : k ∈ layerKeys s := hks k (List.mem_cons_self _ _)
    have hknotin : ¬ k ∈ ks := (List.nodup_cons.mp hnd).1
    have hndks : ks.Nodup := (List.nodup_cons.mp hnd).2
    rcases hl : odLookup s.layers k with _ | ent
    · have h1 := (odLookup_isSome_iff s.layers k).mpr hkmem
      rw [hl] at h1
      simp at h1
    · rcases ent with _ | i0
      · -- pending: load, then write handle tagged false
        obtain ⟨i, t1, hok, hWF1, hobs1, hlk, hne1, hlkp, hmem1, hle1, hheap1, hlog1⟩ :=
          getItem_spec hWF hkmem
        have hmemk : (k, (none : Option Nat)) ∈ s.layers := odLookup_mem hl
        rcases hr : s.reader with _ | r
        · have hc := hWF.2.2.2.2.2 _ hmemk rfl
          simp [readerCovers, hr] at hc
        · have hc := hWF.2.2.2.2.2 _ hmemk rfl
          simp only [readerCovers, hr] at hc
          rcases hg : readerGlyphs r k with _ | gl
          · rw [readerHas, hg] at hc
            simp at hc
          · have hpe := getItem_pending_eq hl hr hg
            rw [hok] at hpe
            injection hpe with hpe1
            rw [Prod.mk.injEq] at hpe1
            obtain ⟨hpei, hpet⟩ := hpe1
            have hlf : loadLayerFn s k = .ok (i, t1) := by
              have h1 : getItem s k = loadLayerFn s k := by simp [getItem, hl]
              rw [← h1]
              exact hok
            have ht1log : t1.log = s.log ++ [Event.loadReq k] := by
              rw [hpet]
            obtain ⟨t, hrec, hWFt, hkeyst, hdeft, hlogt, hcleart, huntoucht, hmemt⟩ :=
              ih { t1 with log := t1.log ++ [Event.writeGS k false] } hWF1
                (fun k0 hk0 => hobs1.1 ▸ hks k0 (List.mem_cons_of_mem _ hk0)) hndks
            refine ⟨t, ?_, hWFt, hkeyst.trans hobs1.1, hdeft.trans hobs1.2.1, ?_, ?_, ?_, ?_⟩
            · simp [writeLoop, hl, hlf, hrec]
            · rw [hlogt]
              show (t1.log ++ [Event.writeGS k false]) ++ saveAsTail t1.layers t1.defaultId ks =
                s.log ++ saveAsTail s.layers s.defaultId (k :: ks)
              rw [saveAsTail, hl, ht1log,
                saveAsTail_congr t1.defaultId ks t1.layers s.layers
                  (fun k0 hk0 => hne1 k0 (fun he => hknotin (he ▸ hk0))),
                hobs1.2.1]
              simp
            · intro k0 hk0
              rcases List.mem_cons.mp hk0 with h1 | h1
              · subst h1
                rw [huntoucht k0 hknotin]
                show ¬ odLookup t1.layers k0 = some none
                rw [hlk]
                simp
              · exact hcleart k0 h1
            · intro k0 hk0
              have h1 : ¬ k0 ∈ ks := fun hc => hk0 (List.mem_cons_of_mem _ hc)
              have h2 : k0 ≠ k := fun hc => hk0 (hc ▸ List.mem_cons_self _ _)
              rw [huntoucht k0 h1]
              show odLookup t1.layers k0 = odLookup s.layers k0
              exact hne1 k0 h2
            · intro p hp hpn
              exact hmemt p (hmem1 p hp hpn) hpn
      · -- loaded: one write handle
        obtain ⟨t, hrec, hWFt, hkeyst, hdeft, hlogt, hcleart, huntoucht, hmemt⟩ :=
          ih { s with log := s.log ++ [Event.writeGS k (decide (i0 = s.defaultId))] } hWF
            (fun k0 hk0 => hks k0 (List.mem_cons_of_mem _ hk0)) hndks
        refine ⟨t, ?_, hWFt, hkeyst, hdeft, ?_, ?_, ?_, ?_⟩
        · simp [writeLoop, hl, hrec]
        · rw [hlogt]
          show (s.log ++ [Event.writeGS k (decide (i0 = s.defaultId))]) ++ saveAsTail s.layers s.defaultId ks =
            s.log ++ saveAsTail s.layers s.defaultId (k :: ks)
          rw [saveAsTail, hl]
          simp
        · intro k0 hk0
          rcases List.mem_cons.mp hk0 with h1 | h1
          · subst h1
            rw [huntoucht k0 hknotin]
            show ¬ odLookup s.layers k0 = some none
            rw [hl]
            simp
          · exact hcleart k0 h1
        · intro k0 hk0
          have h1 : ¬ k0 ∈ ks := fun hc => hk0 (List.mem_cons_of_mem _ hc)
          exact huntoucht k0 h1
        · intro p hp hpn
          exact hmemt p hp hpn

/-- C7: writing to a different store (`saveAs=True`) materializes every
Pending entry — each load request immediately preceding that layer's own
write —, obtains a write handle for every layer in the current order,
performs no deletion-diff (no delete request at all), and commits the
order as the manifest. -/
theorem write_saveas_contract (s : LayerSet) (w : UFOWriter) (hWF : WF s) :
    ∃ t, layerSetWrite s w (some true) = .ok t
      ∧ t.log = s.log ++ saveAsTail s.layers s.defaultId (layerKeys s)
          ++ [.manifest (layerKeys s)]
      ∧ (∀ p ∈ t.layers, ¬ p.2 = none)
      ∧ (saveAsTail s.layers s.defaultId (layerKeys s)).filterMap evWriteName = layerKeys s
      ∧ (∀ n, ¬ Event.deleteReq n ∈ saveAsTail s.layers s.defaultId (layerKeys s))
      ∧ (∀ k, odLookup s.layers k = some none →
          List.IsInfix [Event.loadReq k, Event.writeGS k false]
            (saveAsTail s.layers s.defaultId (layerKeys s))) := by
  obtain ⟨t1, hwl, hWFt, hkeys, hdef, hlog, hclear, huntouch, hmem⟩ :=
    writeLoop_true_spec (layerKeys s) s hWF (fun _ h => h) hWF.1
  refine ⟨{ t1 with log := t1.log ++ [.manifest (layerKeys t1)] }, ?_, ?_, ?_, ?_, ?_, ?_⟩
  · rw [layerSetWrite]
    simp [hwl]
  · show t1.log ++ [Event.manifest (layerKeys t1)] = _
    rw [hlog, hkeys]
  · intro p hp
    have hp1 : p.1 ∈ layerKeys t1 := List.mem_map.mpr ⟨p, hp, rfl⟩
    have h2 := hclear p.1 (hkeys ▸ hp1)
    have h3 : odLookup t1.layers p.1 = some p.2 := by
      apply mem_odLookup
      · show (layerKeys t1).Nodup
        rw [hkeys]
        exact hWF.1
      · exact hp
    intro hc
    rw [hc] at h3
    exact h2 h3
  · exact saveAsTail_write_names s.layers s.defaultId (layerKeys s)
      (fun k hk => (containsKeyB_iff _ _).mpr hk)
  · exact fun n => saveAsTail_no_delete s.layers s.defaultId n (layerKeys s)
  · intro k hk
    have hkm : k ∈ layerKeys s := by
      have h1 := (odLookup_isSome_iff s.layers k).mp
      apply h1
      rw [hk]
      rfl
    exact saveAsTail_pending_infix s.layers s.defaultId k hk (layerKeys s) hkm

/-- A target store for the write claims. -/
def exW : UFOWriter := ⟨9, [DEFAULT_LAYER_NAME, "gone"]⟩

/-- C6 witness: on the concrete lazily-read set, the in-place write
succeeds, the orphan diff contains exactly `gone`, and no load request is
issued. -/
theorem write_in_place_contract_witness :
    ∃ t, layerSetWrite exC9s exW (some false) = .ok t
      ∧ (Event.deleteReq "gone" ∈ deleteDiff exW exC9s
          ↔ ("gone" ∈ exW.layerNames ∧ ¬ "gone" ∈ layerKeys exC9s))
      ∧ ¬ Event.loadReq "side" ∈ deleteDiff exW exC9s
          ++ wlEvents exC9s.layers exC9s.defaultId (layerKeys exC9s)
          ++ [Event.manifest (layerKeys exC9s)] := by
  obtain ⟨t, h1, _, _, _, _, _, _, h8, h9, _⟩ := write_in_place_contract exC9s exW
  exact ⟨t, h1, h8 "gone", h9 "side"⟩

/-- C7 witness: on the concrete lazily-read set (with its pending `side`
layer), the saveAs write succeeds and leaves every entry loaded. -/
theorem write_saveas_contract_witness :
    ∃ t, layerSetWrite exC9s exW (some true) = .ok t
      ∧ (∀ p ∈ t.layers, ¬ p.2 = none)
      ∧ List.IsInfix [Event.loadReq "side", Event.writeGS "side" false]
          (saveAsTail exC9s.layers exC9s.defaultId (layerKeys exC9s)) := by
  obtain ⟨t, h1, _, h3, _, _, h6⟩ := write_saveas_contract exC9s exW (by decide)
  exact ⟨t, h1, h3, h6 "side" (by decide)⟩

/-! ### Claim C2: the default-layer invariant -/

/-- Transfer of default presence along an operation that keeps the
default reference and every loaded entry. -/
theorem defaultPresent_transfer {s t : LayerSet} (hdp : defaultPresent s)
    (hd : t.defaultId = s.defaultId)
    (hm : ∀ p ∈ s.layers, p.2 ≠ none → p ∈ t.layers) : defaultPresent t := by
  obtain ⟨p, hp, hp2⟩ := List.mem_map.mp hdp
  refine List.mem_map.mpr ⟨p, hm p hp ?_, by rw [hp2, hd]⟩
  rw [hp2]
  simp

/-- Every successful `__attrs_post_init__` leaves the default layer
present among the entries. -/
theorem mkLayerSet_defaultPresent {layers : List (String × Option Nat)}
    {dflt : Option Nat} {heap : Heap} {nid : Nat} {rdr : Option UFOReader}
    {log : List Event} {s : LayerSet}
    (h : mkLayerSet layers dflt heap nid rdr log = .ok s) : defaultPresent s := by
  rw [mkLayerSet.eq_def] at h
  split at h
  · split at h
    · cases h
    · cases h
      rw [defaultPresent]
      simp
  · split at h
    · rename_i d
      split at h
      · rename_i hany
        cases h
        rw [defaultPresent]
        rcases List.any_eq_true.mp hany with ⟨p, hp, hpd⟩
        simp only [decide_eq_true_eq] at hpd
        exact List.mem_map.mpr ⟨p, hp, hpd⟩
      · cases h
    · split at h
      · cases h
      · split at h
        · rename_i i hi
          cases h
          rw [defaultPresent]
          exact List.mem_map.mpr ⟨(DEFAULT_LAYER_NAME, some i), odLookup_mem hi, rfl⟩
        · cases h
        · cases h

/-- In-place glyph-map replacement on a loaded entry: well-formedness and
everything but the heap data survive. -/
theorem setGlyphs_facts {s : LayerSet} {k : String} {i : Nat} (hWF : WF s)
    (hl : odLookup s.layers k = some (some i)) (gl : List (String × Glyph)) :
    WF (setGlyphs s i gl) ∧ (setGlyphs s i gl).layers = s.layers
      ∧ (setGlyphs s i gl).defaultId = s.defaultId
      ∧ (setGlyphs s i gl).reader = s.reader := by
  obtain ⟨hnd, hdlt, hhb, hhnd, hload, hpend⟩ := hWF
  obtain ⟨hib, hin⟩ := hload _ (odLookup_mem hl) i rfl
  rcases hh : heapLookup s.heap i with _ | d
  · rw [heapName, hh] at hin
    cases hin
  · have hstep : setGlyphs s i gl = { s with heap := heapSet s.heap i { d with glyphs := gl } } := by
      rw [setGlyphs, hh]
    rw [hstep]
    refine ⟨⟨hnd, hdlt, ?_, ?_, ?_, hpend⟩, rfl, rfl, rfl⟩
    · exact heapSet_mem_bound hhb i _ hib
    · show ((heapSet s.heap i { d with glyphs := gl }).map Prod.fst).Nodup
      rw [heapSet_keys]
      exact hhnd
    · intro p hp j hj
      obtain ⟨hb1, hb2⟩ := hload p hp j hj
      refine ⟨hb1, ?_⟩
      by_cases hji : j = i
      · subst hji
        show (heapLookup (heapSet s.heap j { d with glyphs := gl }) j).map LayerData.name = some p.1
        rw [heapLookup_heapSet_self hh]
        rw [heapName, hh] at hb2
        exact hb2
      · show (heapLookup (heapSet s.heap i { d with glyphs := gl }) j).map LayerData.name = some p.1
        rw [heapLookup_heapSet_ne _ _ _ _ hji]
        exact hb2

/-- The first `renameGlyph` walk always succeeds on a well-formed set and
preserves the entry table's loaded members, the default reference and the
key order. -/
theorem anyHasGlyph_total (g : String) : ∀ (ks : List String) (s : LayerSet), WF s →
    (∀ k ∈ ks, k ∈ layerKeys s) →
    ∃ b t, anyHasGlyph ks s g = .ok (b, t) ∧ WF t ∧ layerKeys t = layerKeys s
      ∧ t.defaultId = s.defaultId ∧ (∀ p ∈ s.layers, p.2 ≠ none → p ∈ t.layers) := by
  intro ks
  induction ks with
  | nil =>
    intro s hWF _
    exact ⟨false, s, rfl, hWF, rfl, rfl, fun p hp _ => hp⟩
  | cons k ks ih =>
    intro s hWF hks
    obtain ⟨i, t1, hok, hWF1, hobs1, hlk, hne1, hlkp, hmem1, _, _, _⟩ :=
      getItem_spec hWF (hks k (List.mem_cons_self _ _))
    by_cases hgm : glyphMemB t1 i g = true
    · exact ⟨true, t1, by simp [anyHasGlyph, hok, hgm], hWF1, hobs1.1, hobs1.2.1, hmem1⟩
    · rw [Bool.not_eq_true] at hgm
      obtain ⟨b, t, hrec, hWFt, hkt, hdt, hmt⟩ :=
        ih t1 hWF1 (fun k0 hk0 => hobs1.1 ▸ hks k0 (List.mem_cons_of_mem _ hk0))
      exact ⟨b, t, by simp [anyHasGlyph, hok, hgm, hrec], hWFt, hkt.trans hobs1.1,
        hdt.trans hobs1.2.1, fun p hp hpn => hmt p (hmem1 p hp hpn) hpn⟩

/-- The destination-preparation walk of `renameGlyph` preserves the
loaded members of the entry table and the default reference, for every
outcome and either overwrite mode. -/
theorem conflictPass_pres (g : String) (ow : Bool) : ∀ (ks : List String) (s : LayerSet),
    WF s → (∀ k ∈ ks, k ∈ layerKeys s) →
    (∀ t, conflictPass ks s g ow = .ok t →
      WF t ∧ layerKeys t = layerKeys s ∧ t.defaultId = s.defaultId
        ∧ (∀ p ∈ s.layers, p.2 ≠ none → p ∈ t.layers))
    ∧ (∀ e t, conflictPass ks s g ow = .error (e, t) →
      t.defaultId = s.defaultId ∧ (∀ p ∈ s.layers, p.2 ≠ none → p ∈ t.layers)) := by
  intro ks
  induction ks with
  | nil =>
    intro s hWF _
    constructor
    · intro t h
      cases h
      exact ⟨hWF, rfl, rfl, fun p hp _ => hp⟩
    · intro e t h
      cases h
  | cons k ks ih =>
    intro s hWF hks
    obtain ⟨i, t1, hok, hWF1, hobs1, hlk, hne1, hlkp, hmem1, _, _, _⟩ :=
      getItem_spec hWF (hks k (List.mem_cons_self _ _))
    by_cases hgm : glyphMemB t1 i g = true
    · rcases ow with _ | _
      · -- not overwriting: immediate conflict error at t1
        constructor
        · intro t h
          simp [conflictPass, hok, hgm] at h
        · intro e t h
          simp [conflictPass, hok, hgm] at h
          obtain ⟨-, ht⟩ := h
          subst ht
          exact ⟨hobs1.2.1, hmem1⟩
      · -- overwriting: delete the destination glyph and continue
        have hfacts := setGlyphs_facts hWF1 hlk (odErase (heapGlyphs t1 i) g)
        obtain ⟨hWF2, hlay2, hdef2, -⟩ := hfacts
        have hkeys2 : layerKeys (setGlyphs t1 i (odErase (heapGlyphs t1 i) g)) = layerKeys t1 := by
          rw [layerKeys, hlay2]
          rfl
        obtain ⟨ih1, ih2⟩ :=
          ih (setGlyphs t1 i (odErase (heapGlyphs t1 i) g)) hWF2
            (fun k0 hk0 => by
              rw [hkeys2, hobs1.1]
              exact hks k0 (List.mem_cons_of_mem _ hk0))
        constructor
        · intro t h
          simp [conflictPass, hok, hgm] at h
          obtain ⟨hWFt, hkt, hdt, hmt⟩ := ih1 t h
          refine ⟨hWFt, (hkt.trans hkeys2).trans hobs1.1,
            (hdt.trans hdef2).trans hobs1.2.1, ?_⟩
          intro p hp hpn
          refine hmt p ?_ hpn
          rw [hlay2]
          exact hmem1 p hp hpn
        · intro e t h
          simp [conflictPass, hok, hgm] at h
          obtain ⟨hdt, hmt⟩ := ih2 e t h
          refine ⟨(hdt.trans hdef2).trans hobs1.2.1, ?_⟩
          intro p hp hpn
          refine hmt p ?_ hpn
          rw [hlay2]
          exact hmem1 p hp hpn
    · rw [Bool.not_eq_true] at hgm
      obtain ⟨ih1, ih2⟩ :=
        ih t1 hWF1 (fun k0 hk0 => hobs1.1 ▸ hks k0 (List.mem_cons_of_mem _ hk0))
      constructor
      · intro t h
        simp [conflictPass, hok, hgm] at h
        obtain ⟨hWFt, hkt, hdt, hmt⟩ := ih1 t h
        exact ⟨hWFt, hkt.trans hobs1.1, hdt.trans hobs1.2.1,
          fun p hp hpn => hmt p (hmem1 p hp hpn) hpn⟩
      · intro e t h
        simp [conflictPass, hok, hgm] at h
        obtain ⟨hdt, hmt⟩ := ih2 e t h
        exact ⟨hdt.trans hobs1.2.1, fun p hp hpn => hmt p (hmem1 p hp hpn) hpn⟩

/-- The move walk of `renameGlyph` preserves the loaded members of the
entry table and the default reference, for every outcome. -/
theorem movePass_pres (old newName : String) : ∀ (ks : List String) (s : LayerSet),
    WF s → (∀ k ∈ ks, k ∈ layerKeys s) →
    (∀ t, movePass ks s old newName = .ok t →
      WF t ∧ layerKeys t = layerKeys s ∧ t.defaultId = s.defaultId
        ∧ (∀ p ∈ s.layers, p.2 ≠ none → p ∈ t.layers))
    ∧ (∀ e t, movePass ks s old newName = .error (e, t) →
      t.defaultId = s.defaultId ∧ (∀ p ∈ s.layers, p.2 ≠ none → p ∈ t.layers)) := by
  intro ks
  induction ks with
  | nil =>
    intro s hWF _
    constructor
    · intro t h
      cases h
      exact ⟨hWF, rfl, rfl, fun p hp _ => hp⟩
    · intro e t h
      cases h
  | cons k ks ih =>
    intro s hWF hks
    obtain ⟨i, t1, hok, hWF1, hobs1, hlk, hne1, hlkp, hmem1, _, _, _⟩ :=
      getItem_spec hWF (hks k (List.mem_cons_self _ _))
    by_cases hgm : glyphMemB t1 i old = true
    · rcases hgl : odLookup (heapGlyphs t1 i) old with _ | g0
      · -- cannot happen (membership true), but the walk just continues
        obtain ⟨ih1, ih2⟩ :=
          ih t1 hWF1 (fun k0 hk0 => hobs1.1 ▸ hks k0 (List.mem_cons_of_mem _ hk0))
        constructor
        · intro t h
          simp [movePass, hok, hgm, hgl] at h
          obtain ⟨hWFt, hkt, hdt, hmt⟩ := ih1 t h
          exact ⟨hWFt, hkt.trans hobs1.1, hdt.trans hobs1.2.1,
            fun p hp hpn => hmt p (hmem1 p hp hpn) hpn⟩
        · intro e t h
          simp [movePass, hok, hgm, hgl] at h
          obtain ⟨hdt, hmt⟩ := ih2 e t h
          exact ⟨hdt.trans hobs1.2.1, fun p hp hpn => hmt p (hmem1 p hp hpn) hpn⟩
      · have hfacts := setGlyphs_facts hWF1 hlk
          (insertOD (odErase (heapGlyphs t1 i) old) newName { g0 with gname := newName })
        obtain ⟨hWF2, hlay2, hdef2, -⟩ := hfacts
        have hkeys2 : layerKeys (setGlyphs t1 i
            (insertOD (odErase (heapGlyphs t1 i) old) newName { g0 with gname := newName })) =
            layerKeys t1 := by
          rw [layerKeys, hlay2]
          rfl
        obtain ⟨ih1, ih2⟩ :=
          ih (setGlyphs t1 i
              (insertOD (odErase (heapGlyphs t1 i) old) newName { g0 with gname := newName }))
            hWF2
            (fun k0 hk0 => by
              rw [hkeys2, hobs1.1]
              exact hks k0 (List.mem_cons_of_mem _ hk0))
        constructor
        · intro t h
          simp [movePass, hok, hgm, hgl] at h
          obtain ⟨hWFt, hkt, hdt, hmt⟩ := ih1 t h
          refine ⟨hWFt, (hkt.trans hkeys2).trans hobs1.1,
            (hdt.trans hdef2).trans hobs1.2.1, ?_⟩
          intro p hp hpn
          refine hmt p ?_ hpn
          rw [hlay2]
          exact hmem1 p hp hpn
        · intro e t h
          simp [movePass, hok, hgm, hgl] at h
          obtain ⟨hdt, hmt⟩ := ih2 e t h
          refine ⟨(hdt.trans hdef2).trans hobs1.2.1, ?_⟩
          intro p hp hpn
          refine hmt p ?_ hpn
          rw [hlay2]
          exact hmem1 p hp hpn
    · rw [Bool.not_eq_true] at hgm
      obtain ⟨ih1, ih2⟩ :=
        ih t1 hWF1 (fun k0 hk0 => hobs1.1 ▸ hks k0 (List.mem_cons_of_mem _ hk0))
      constructor
      · intro t h
        simp [movePass, hok, hgm] at h
        obtain ⟨hWFt, hkt, hdt, hmt⟩ := ih1 t h
        exact ⟨hWFt, hkt.trans hobs1.1, hdt.trans hobs1.2.1,
          fun p hp hpn => hmt p (hmem1 p hp hpn) hpn⟩
      · intro e t h
        simp [movePass, hok, hgm] at h
        obtain ⟨hdt, hmt⟩ := ih2 e t h
        exact ⟨hdt.trans hobs1.2.1, fun p hp hpn => hmt p (hmem1 p hp hpn) hpn⟩

instance (s : LayerSet) : Decidable (defaultPresent s) :=
  inferInstanceAs (Decidable (some s.defaultId ∈ s.layers.map Prod.snd))

/-- A directly-constructed two-layer set: default `public.default` (id 0)
plus `other` (id 1). -/
def exC2s0 : LayerSet :=
  ⟨[(DEFAULT_LAYER_NAME, some 0), ("other", some 1)], 0,
   [(0, ⟨DEFAULT_LAYER_NAME, []⟩), (1, ⟨"other", []⟩)], 2, none, []⟩

/-- The same set after `renameLayer("other", "public.default",
overwrite=True)`: the old default object (id 0) has been evicted from the
entry table. -/
def exC2s1 : LayerSet :=
  ⟨[(DEFAULT_LAYER_NAME, some 1)], 0,
   [(0, ⟨DEFAULT_LAYER_NAME, []⟩), (1, ⟨DEFAULT_LAYER_NAME, []⟩)], 2, none, []⟩

/-- C2 counterexample: on a well-formed two-layer set produced by the
constructor, `renameLayer("other", "public.default", overwrite=True)`
succeeds and replaces the entry holding the default layer object with a
*different* object — afterwards `defaultLayer` is no longer present among
the entries by identity, refuting the invariant for renameLayer. -/
theorem default_layer_invariant_counterexample :
    layerSetNew [⟨0, ⟨DEFAULT_LAYER_NAME, []⟩⟩, ⟨1, ⟨"other", []⟩⟩] none = .ok exC2s0
    ∧ WF exC2s0 ∧ defaultPresent exC2s0
    ∧ renameLayer exC2s0 "other" DEFAULT_LAYER_NAME true = .ok exC2s1
    ∧ ¬ defaultPresent exC2s1 := by
  refine ⟨by rfl, by decide, by decide, by rfl, by decide⟩

/-- C2 amended: the default layer (a single reference, so "exactly one")
is present among the entries by identity after every successful
construction (direct or via read), and this presence is preserved by
`newLayer`, `delete`, the layerOrder setter, `renameGlyph` and `write` —
whether they succeed or raise — and by `renameLayer` *except* when it
overwrites the entry that holds the default layer object with a different
layer (the counterexample above); that case is excluded by hypothesis. -/
theorem default_layer_invariant_preserved :
    (∀ (objs : List Layer) (dflt : Option Nat) (t : LayerSet),
      layerSetNew objs dflt = .ok t → defaultPresent t)
    ∧ (∀ (r : UFOReader) (lazy : Bool) (t : LayerSet),
      layerSetRead r lazy = .ok t → defaultPresent t)
    ∧ ∀ s : LayerSet, WF s → defaultPresent s →
        (∀ n, defaultPresent (endState (newLayer s n)))
        ∧ (∀ n, defaultPresent (endState (delitem s n)))
        ∧ (∀ ord, defaultPresent (endState (setLayerOrder s ord)))
        ∧ (∀ old new ow, (ow = true → ¬ odLookup s.layers new = some (some s.defaultId)) →
            defaultPresent (endState (renameLayer s old new ow)))
        ∧ (∀ old new ow, defaultPresent (endState (renameGlyph s old new ow)))
        ∧ (∀ w sa, defaultPresent (endState (layerSetWrite s w sa))) := by
  refine ⟨?_, ?_, ?_⟩
  · -- direct construction
    intro objs dflt t h
    rcases hconv : convertLayersAux objs [] with e | layers
    · simp [layerSetNew, hconv] at h
    · simp only [layerSetNew, hconv] at h
      exact mkLayerSet_defaultPresent h
  · -- read
    intro r lazy t h
    rw [layerSetRead] at h
    rcases hloop : readLoop r lazy r.layerNames [] none [] 0 [] with e | ⟨l1, d1, h1, n1, g1⟩
    · rw [hloop] at h
      cases h
    · rw [hloop] at h
      rcases d1 with _ | d
      · cases h
      · have h2 : mkLayerSet l1 (some d) h1 n1 (if lazy then some r else none) g1 = .ok t := h
        exact mkLayerSet_defaultPresent h2
  · intro s hWF hdp
    have hnds : (layerKeys s).Nodup := hWF.1
    refine ⟨?_, ?_, ?_, ?_, ?_, ?_⟩
    · -- newLayer
      intro n
      by_cases hc : containsKeyB s.layers n = true
      · simp only [newLayer, hc, if_true, endState]
        exact hdp
      · simp only [newLayer, hc, if_false, Bool.false_eq_true, endState]
        show some s.defaultId ∈ (s.layers ++ [(n, some s.nextId)]).map Prod.snd
        rw [List.map_append]
        exact List.mem_append_left _ hdp
    · -- delitem
      intro n
      by_cases h1 : n = defaultName s
      · simp only [delitem, h1, if_true, endState]
        exact hdp
      · by_cases h2 : containsKeyB s.layers n = true
        · simp only [delitem, h1, if_false, h2, if_true, endState]
          obtain ⟨p, hp, hpv⟩ := List.mem_map.mp hdp
          have hpn : p.1 ≠ n := by
            intro he
            have hl := mem_odLookup hnds (show (p.1, p.2) ∈ s.layers by simpa using hp)
            rw [he] at hl
            rw [hpv] at hl
            obtain ⟨-, hb2⟩ := hWF.2.2.2.2.1 p hp s.defaultId hpv
            rw [heapName] at hb2
            rcases hh : heapLookup s.heap s.defaultId with _ | dd
            · rw [hh] at hb2
              cases hb2
            · rw [hh] at hb2
              injection hb2 with hb2
              apply h1
              rw [defaultName, hh]
              show n = dd.name
              rw [hb2, he]
          show some s.defaultId ∈ (odErase s.layers n).map Prod.snd
          exact List.mem_map.mpr ⟨p, mem_odErase_of_ne n hp hpn, hpv⟩
        · simp only [delitem, h1, if_false, h2, endState]
          exact hdp
    · -- layerOrder setter
      intro ord
      by_cases h1 : sameNameSet ord (layerKeys s) = true
      · simp only [setLayerOrder, h1, if_true, endState]
        obtain ⟨p, hp, hpv⟩ := List.mem_map.mp hdp
        have hl := mem_odLookup hnds (show (p.1, p.2) ∈ s.layers by simpa using hp)
        have hkm : p.1 ∈ layerKeys s := List.mem_map.mpr ⟨p, hp, rfl⟩
        have hio : p.1 ∈ ord := by
          rw [sameNameSet, Bool.and_eq_true] at h1
          have := List.all_eq_true.mp h1.2 p.1 hkm
          simpa using this
        have hck : containsKeyB s.layers p.1 = true := (containsKeyB_iff _ _).mpr hkm
        have hfin : odLookup (reorderOD s.layers ord []) p.1 = some p.2 := by
          rw [odLookup_reorderOD, if_pos ⟨hio, hck⟩]
          exact hl
        show some s.defaultId ∈ (reorderOD s.layers ord []).map Prod.snd
        exact List.mem_map.mpr ⟨(p.1, p.2), odLookup_mem hfin, hpv⟩
      · simp only [setLayerOrder, h1, if_false, endState]
        exact hdp
    · -- renameLayer (with the overwrite-eviction case excluded)
      intro old new ow hD
      by_cases h1 : old = new
      · simp only [renameLayer, h1, if_true, endState]
        exact hdp
      · by_cases h2 : ¬ow = true ∧ containsKeyB s.layers new = true
        · simp only [renameLayer, h1, if_false, h2, if_true, endState]
          exact hdp
        · rcases hgi : getItem s old with ⟨e, s1⟩ | ⟨i, s1⟩
          · have hs1 : s1 = s := getItem_err hgi
            simp only [renameLayer, h1, if_false, h2, hgi, endState]
            rw [hs1]
            exact hdp
          · have hmemk : old ∈ layerKeys s := by
              rcases hl0 : odLookup s.layers old with _ | ent
              · simp [getItem, hl0] at hgi
              · exact (odLookup_isSome_iff _ _).mp (by rw [hl0]; rfl)
            obtain ⟨i2, t2, hok2, hWF2, hobs2, hlk2, hne2, hlkp2, hmem2, _, _, _⟩ :=
              getItem_spec hWF hmemk
            rw [hgi] at hok2
            injection hok2 with h3
            rw [Prod.mk.injEq] at h3
            obtain ⟨hi2, ht2⟩ := h3
            subst hi2
            subst ht2
            simp only [renameLayer, h1, if_false, h2, hgi, endState]
            obtain ⟨p, hp, hpv⟩ := List.mem_map.mp hdp
            have hp1 : p ∈ s1.layers := hmem2 p hp (by rw [hpv]; simp)
            show some s1.defaultId ∈ (insertOD (odErase s1.layers old) new (some i)).map Prod.snd
            by_cases hpo : p.1 = old
            · have hlp : odLookup s1.layers old = some p.2 := by
                rw [← hpo]
                exact mem_odLookup hWF2.1 (show (p.1, p.2) ∈ s1.layers by simpa using hp1)
              rw [hlk2] at hlp
              injection hlp with hlp
              rw [hpv] at hlp
              injection hlp with hlp
              refine List.mem_map.mpr ⟨(new, some i), odLookup_mem (odLookup_insertOD_self _ _ _), ?_⟩
              show some i = some s1.defaultId
              rw [hobs2.2.1, hlp]
            · have hp2 : p ∈ odErase s1.layers old := mem_odErase_of_ne old hp1 hpo
              by_cases hpn : p.1 = new
              · exfalso
                have hlnew : odLookup s.layers new = some (some s.defaultId) := by
                  rw [← hpn]
                  have := mem_odLookup hnds (show (p.1, p.2) ∈ s.layers by simpa using hp)
                  rw [hpv] at this
                  exact this
                rcases ow with _ | _
                · apply h2
                  refine ⟨by simp, ?_⟩
                  rw [containsKeyB, hlnew]
                  rfl
                · exact (hD rfl) hlnew
              · refine List.mem_map.mpr ⟨p, mem_insertOD_of_ne _ _ hp2 hpn, ?_⟩
                rw [hobs2.2.1]
                exact hpv
    · -- renameGlyph: all outcomes
      intro old new ow
      by_cases h1 : old = new
      · simp only [renameGlyph, h1, if_true, endState]
        exact hdp
      · obtain ⟨b, t1, h2, hWF1, hk1, hd1, hm1⟩ :=
          anyHasGlyph_total old (layerKeys s) s hWF (fun _ h => h)
        have hdp1 : defaultPresent t1 := defaultPresent_transfer hdp hd1 hm1
        rcases b with _ | _
        · simp only [renameGlyph, h1, if_false, h2, endState]
          exact hdp1
        · obtain ⟨cp1, cp2⟩ := conflictPass_pres new ow (layerKeys t1) t1 hWF1 (fun _ h => h)
          rcases hcp : conflictPass (layerKeys t1) t1 new ow with ⟨e, t2⟩ | t2
          · obtain ⟨hdt2, hmt2⟩ := cp2 e t2 hcp
            simp only [renameGlyph, h1, if_false, h2, hcp, endState]
            exact defaultPresent_transfer hdp1 hdt2 hmt2
          · obtain ⟨hWF2, hk2, hd2, hm2⟩ := cp1 t2 hcp
            have hdp2 : defaultPresent t2 := defaultPresent_transfer hdp1 hd2 hm2
            obtain ⟨mp1, mp2⟩ := movePass_pres old new (layerKeys t2) t2 hWF2 (fun _ h => h)
            rcases hmv : movePass (layerKeys t2) t2 old new with ⟨e, t3⟩ | t3
            · obtain ⟨hdt3, hmt3⟩ := mp2 e t3 hmv
              simp only [renameGlyph, h1, if_false, h2, hcp, hmv, endState]
              exact defaultPresent_transfer hdp2 hdt3 hmt3
            · obtain ⟨hWF3, hk3, hd3, hm3⟩ := mp1 t3 hmv
              simp only [renameGlyph, h1, if_false, h2, hcp, hmv, endState]
              exact defaultPresent_transfer hdp2 hd3 hm3
    · -- write: both in-place and saveAs
      intro w sa
      have hk : layerSetWrite s w sa = layerSetWrite s w
          (some (match sa with
            | some b => b
            | none => match s.reader with
              | none => true
              | some r => decide (r.id ≠ w.id))) := by
        rcases sa with _ | b <;> rfl
      rw [hk]
      generalize (match sa with
        | some b => b
        | none => match s.reader with
          | none => true
          | some r => decide (r.id ≠ w.id)) = b
      rcases b with _ | _
      · have hwl := writeLoop_false_eq
          (layerKeys { s with log := s.log ++ deleteDiff w s })
          { s with log := s.log ++ deleteDiff w s }
        simp only [layerSetWrite, hwl, endState, if_false, Bool.false_eq_true]
        exact hdp
      · obtain ⟨t1, hwl, hWFt, hkt, hdt, hlt, hct, hut, hmt⟩ :=
          writeLoop_true_spec (layerKeys s) s hWF (fun _ h => h) hWF.1
        simp only [layerSetWrite, hwl, endState, if_true]
        exact defaultPresent_transfer hdp hdt hmt

/-- C2 witness: the preserved invariant applied to the concrete
two-layer set, for a new layer, a glyph rename with overwrite, a saveAs
write, and a non-evicting layer rename. -/
theorem default_layer_invariant_preserved_witness :
    defaultPresent (endState (newLayer exC3 "x"))
    ∧ defaultPresent (endState (renameGlyph exC3 "a" "b" true))
    ∧ defaultPresent (endState (layerSetWrite exC3 exW (some true)))
    ∧ defaultPresent (endState (renameLayer exC3 "a" "b" false)) := by
  obtain ⟨-, -, h⟩ := default_layer_invariant_preserved
  obtain ⟨hA, hB, hC, hD, hE, hF⟩ := h exC3 (by decide) (by decide)
  exact ⟨hA "x", hE "a" "b" true, hF exW (some true), hD "a" "b" false (by decide)⟩
